import Mathlib

/-!
Verification of the batch-analysis pipeline of the customer-feedback
application.  Python functions from the repository are shallowly embedded as
executable Lean definitions; machine floats are modelled by rationals,
Python dicts by association lists with last-insertion-wins lookup, and
foreign library calls (hashing, Unicode tables, difflib similarity) by
explicit function parameters.
-/

namespace Feedback

/-! ## Python dictionary model

Python `dict` built by successive assignments: a later assignment to the same
key overwrites the earlier one, so lookup returns the value of the last
inserted pair. -/

/-- Python slicing `s[:n]`: the first `n` code points. -/
def pyTake (n : Nat) (s : String) : String := (s.toList.take n).asString

/-- Lookup in an association list with Python-dict semantics: the value of the
last pair carrying the key. -/
def dictLookup (ps : List (Nat × α)) (k : Nat) : Option α :=
  (ps.reverse.find? (fun p => p.1 == k)).map (fun p => p.2)

/-! ## NPS calculator (`app/core/nps_calculator.py`)

`calculate_nps_score` and `calculate_nps_metrics_modular`.  Python floats are
modelled by `ℚ`.  The configured method (`settings.NPS_CALCULATION_METHOD`)
and passive weight (`settings.NPS_PASSIVE_WEIGHT`) are passed explicitly. -/

/-- The four calculation methods of `NPSMethod` in `nps_calculator.py`. -/
inductive NPSMethod
  | standard
  | absolute
  | weighted
  | shifted
  deriving DecidableEq, Repr

/-- Model of `calculate_nps_score(promoter_count, passive_count, detractor_count, method)`
from `app/core/nps_calculator.py`.  `passiveWeight` stands for
`settings.NPS_PASSIVE_WEIGHT`. -/
def calculate_nps_score (promoter_count passive_count detractor_count : Nat)
    (method : NPSMethod) (passiveWeight : ℚ) : ℚ :=
  let total_responses : Nat := promoter_count + passive_count + detractor_count
  if total_responses = 0 then 0
  else
    match method with
    | .absolute =>
        |((promoter_count : ℚ) - detractor_count) / total_responses * 100|
    | .weighted =>
        ((promoter_count : ℚ) - detractor_count + passive_count * passiveWeight)
          / total_responses * 100
    | .shifted =>
        (((promoter_count : ℚ) - detractor_count) / total_responses + 1) * 50
    | .standard =>
        ((promoter_count : ℚ) - detractor_count) / total_responses * 100

/-- Python `round(x, 1)` (round-half-to-even at one decimal) on rationals. -/
def roundHalfEven (x : ℚ) : ℤ :=
  let f := ⌊x⌋
  let r := x - f
  if r < 1/2 then f
  else if r > 1/2 then f + 1
  else if Even f then f else f + 1

/-- Round a rational to one decimal place, ties to even, as Python
`round(score, 1)`. -/
def roundTo1 (x : ℚ) : ℚ := (roundHalfEven (x * 10) : ℚ) / 10

/-- The fields of the dictionary returned by `calculate_nps_metrics_modular`
that the specification's claims are about. -/
structure NPSMetrics where
  score : ℚ
  promoters : Nat
  passives : Nat
  detractors : Nat
  interpretation : String
  deriving DecidableEq, Repr

/-- Model of `get_nps_interpretation(score, method)` from `app/core/nps_calculator.py`. -/
def get_nps_interpretation (score : ℚ) (method : NPSMethod) : String :=
  match method with
  | .shifted =>
      if score ≥ 75 then "excellent"
      else if score ≥ 50 then "good"
      else if score ≥ 25 then "needs_improvement"
      else "critical"
  | _ =>
      if score ≥ 70 then "excellent"
      else if score ≥ 50 then "great"
      else if score ≥ 0 then "good"
      else if score ≥ -50 then "needs_improvement"
      else "critical"

/-- Model of `calculate_nps_metrics_modular(nps_counts)` from
`app/core/nps_calculator.py`, with the configured method and passive weight
passed explicitly. -/
def calculate_nps_metrics_modular (promoter passive detractor : Nat)
    (method : NPSMethod) (passiveWeight : ℚ) : NPSMetrics :=
  let total_responses := promoter + passive + detractor
  if total_responses = 0 then
    { score := 50
      promoters := 0
      passives := 0
      detractors := 0
      interpretation := "no_data" }
  else
    let nps_score := calculate_nps_score promoter passive detractor method passiveWeight
    { score := roundTo1 nps_score
      promoters := promoter
      passives := passive
      detractors := detractor
      interpretation := get_nps_interpretation nps_score method }

/-! ## Result expander (`app/services/analysis_service.py`)

`expand_results_with_duplicates(api_results, all_comments, filtered_indices,
duplicate_map, all_ratings)`.  The per-comment API result dictionaries are an
abstract type `α`; `create_default_result` is the `defaultResult` payload. -/

/-- The analysis payload attached to a final row: either a copy of an API
result (with the `is_duplicate` flag the code sets on it), or the synthesized
neutral default of `create_default_result` (which carries
`is_trivial = True`). -/
inductive RowPayload (α : Type) where
  | fromApi (a : α) (is_duplicate : Bool)
  | defaultResult
  deriving DecidableEq, Repr

/-- One element of the list returned by `expand_results_with_duplicates`:
the fields the code sets on every appended dictionary. -/
structure FinalRow (α : Type) where
  index : Nat
  payload : RowPayload α
  original_text : String
  nota : Int
  deriving DecidableEq, Repr

/-- Model of `result['nota'] = all_ratings[idx] if all_ratings and idx < len(all_ratings) else 5`. -/
def notaFor (all_ratings : List Int) (idx : Nat) : Int :=
  if all_ratings ≠ [] ∧ idx < all_ratings.length then all_ratings.getD idx 0 else 5

/-- The row `expand_results_with_duplicates` appends for original index `idx`:
the body of its `for idx in range(len(all_comments))` loop.  `index_to_result`
is the dict built from `zip(filtered_indices, api_results)`. -/
def rowFor (api_results : List α) (all_comments : List String)
    (filtered_indices : List Nat) (duplicate_map : List (Nat × Nat))
    (all_ratings : List Int) (idx : Nat) : FinalRow α :=
  let index_to_result := filtered_indices.zip api_results
  let text := all_comments.getD idx ""
  let nota := notaFor all_ratings idx
  match dictLookup duplicate_map idx with
  | some original_idx =>
      match dictLookup index_to_result original_idx with
      | some result => ⟨idx, .fromApi result true, text, nota⟩
      | none => ⟨idx, .defaultResult, text, nota⟩
  | none =>
      match dictLookup index_to_result idx with
      | some result => ⟨idx, .fromApi result false, text, nota⟩
      | none => ⟨idx, .defaultResult, text, nota⟩

/-- Model of `expand_results_with_duplicates` from `app/services/analysis_service.py`:
one appended row per `idx in range(len(all_comments))`. -/
def expand_results_with_duplicates (api_results : List α)
    (all_comments : List String) (filtered_indices : List Nat)
    (duplicate_map : List (Nat × Nat)) (all_ratings : List Int) :
    List (FinalRow α) :=
  (List.range all_comments.length).map
    (rowFor api_results all_comments filtered_indices duplicate_map all_ratings)

/-! ## Batcher (`app/adapters/openai/utils.py`)

`optimize_batch_size(comments, max_tokens_per_batch, use_accurate_counting)`.
The token-counting function (`count_tokens` with the transformers tokenizer,
or the `len(text) // 4` fallback `estimate_tokens`) is passed explicitly as
`count_fn`; `settings.MAX_BATCH_SIZE` is passed as `max_batch_size`. -/

/-- Model of `estimate_tokens(text)`: the `len(text) // 4` heuristic. -/
def estimate_tokens (text : String) : Nat := text.length / 4

/-- The `for comment, tokens in comment_tokens:` loop of `optimize_batch_size`,
including the final `if current_batch: batches.append(current_batch)`.
State: pending `(comment, tokens)` pairs, the accumulated `batches`,
`current_batch` and `current_tokens`. -/
def batchLoop (max_batch_size : Nat) (available_tokens : Int) :
    List (String × Nat) → List (List String) → List String → Nat →
    List (List String)
  | [], batches, current_batch, _ =>
      batches ++ (if current_batch.isEmpty then [] else [current_batch])
  | (comment, tokens) :: rest, batches, current_batch, current_tokens =>
      if (tokens : Int) > available_tokens then
        batchLoop max_batch_size available_tokens rest
          ((batches ++ (if current_batch.isEmpty then [] else [current_batch]))
            ++ [[comment]]) [] 0
      else
        let would_exceed_tokens := (current_tokens + tokens : Int) > available_tokens
        let would_exceed_size := max_batch_size ≤ current_batch.length
        if (would_exceed_tokens ∨ would_exceed_size) ∧ ¬ current_batch.isEmpty then
          batchLoop max_batch_size available_tokens rest
            (batches ++ [current_batch]) [comment] tokens
        else
          batchLoop max_batch_size available_tokens rest
            batches (current_batch ++ [comment]) (current_tokens + tokens)

/-- Model of `optimize_batch_size` from `app/adapters/openai/utils.py`:
pre-truncates every comment to its first 1500 characters, reserves 2000
tokens from `max_tokens_per_batch`, then packs greedily. -/
def optimize_batch_size (count_fn : String → Nat) (comments : List String)
    (max_tokens_per_batch : Int) (max_batch_size : Nat) : List (List String) :=
  let available_tokens : Int := max_tokens_per_batch - 2000
  let comment_tokens := comments.map (fun comment =>
    let truncated := pyTake 1500 comment
    (truncated, count_fn truncated))
  batchLoop max_batch_size available_tokens comment_tokens [] [] 0

/-! ## Concurrent batch collection (`app/adapters/openai/async_analyzer.py`)

`AsyncOpenAIAnalyzer.analyze_all_batches` awaits its batch tasks with
`asyncio.as_completed(tasks)` and extends `all_results` with each batch's
results as that batch finishes.  `asyncio.as_completed` yields the tasks in
completion order, which is modelled here by an explicit `completion_order`
list of batch indices (a permutation of `range(len(batches))`). -/

/-- The collection loop of `analyze_all_batches`: the per-batch result lists,
appended in the order the batches complete. -/
def analyze_all_batches (batch_results : List (List α))
    (completion_order : List Nat) : List α :=
  (completion_order.map (fun i => batch_results.getD i [])).flatten

/-! ## Overall wait and collection (`app/workers/tasks.py`)

The polling loop of `analyze_feedback` waits up to `max_wait` for the Celery
group; the real-time polling is abstracted to the final state each batch task
has reached when the wait window closes.  If any batch is still pending the
code raises `TimeoutError`; otherwise it collects the successful batches in
submission order, skipping failed ones. -/

/-- Final state of one batch task when the overall wait window closes. -/
inductive BatchTaskState (α : Type) where
  | pending
  | succeeded (result : α)
  | failed
  deriving DecidableEq, Repr

/-- Model of `TimeoutError(f"Batch processing timeout: {completed}/{total} completed")`:
the payload recorded when `analyze_feedback` raises. -/
structure BatchTimeout where
  completed : Nat
  total : Nat
  deriving DecidableEq, Repr

/-- Whether a batch task has reported (Celery `result.ready()`). -/
def BatchTaskState.isReady : BatchTaskState α → Bool
  | .pending => false
  | _ => true

/-- The timeout check and result collection of `analyze_feedback`
(`app/workers/tasks.py`): `if not batch_results.ready(): raise TimeoutError`,
then a loop over `batch_results.results` in submission order appending the
data of each `result.successful()` task and skipping failed ones. -/
def collect_batch_results (states : List (BatchTaskState α)) :
    Except BatchTimeout (List α) :=
  if states.all (fun s => s.isReady) then
    .ok (states.filterMap (fun s =>
      match s with
      | .succeeded r => some r
      | _ => none))
  else
    .error ⟨(states.filter (fun s => s.isReady)).length, states.length⟩

/-! ## Python string primitives

Character-list models of the Python `str` methods the validator uses.
Python string slicing and indexing is by code point, matching `List Char`. -/

/-- Python's default whitespace set for `str.strip` / `str.split`: the
characters `str.isspace` accepts (ASCII whitespace, the information
separators, NEL, NBSP and the Unicode space/line separators). -/
def pyIsSpace (c : Char) : Bool :=
  c ∈ [' ', '\t', '\n', '\r', '\x0b', '\x0c', '\x1c', '\x1d', '\x1e', '\x1f',
    '\x85', '\xa0', '\u1680', '\u2000', '\u2001', '\u2002', '\u2003',
    '\u2004', '\u2005', '\u2006', '\u2007', '\u2008', '\u2009', '\u200a',
    '\u2028', '\u2029', '\u202f', '\u205f', '\u3000']

/-- Python `text.rstrip()` (trailing whitespace removed). -/
def pyRstripWs (l : List Char) : List Char :=
  (l.reverse.dropWhile pyIsSpace).reverse

/-- Python `text.strip()` (whitespace removed from both ends). -/
def pyStrip (l : List Char) : List Char :=
  pyRstripWs (l.dropWhile pyIsSpace)

/-- Python `text.rstrip(chars)`: trailing characters drawn from `set` removed. -/
def pyRstripSet (set : List Char) (l : List Char) : List Char :=
  (l.reverse.dropWhile (fun c => set.contains c)).reverse

/-- Python `text.rfind(pattern)`: the highest index at which `pattern` starts
in `l`, or `none`. -/
def pyRfind (l pattern : List Char) : Option Nat :=
  ((List.range (l.length + 1)).filter
    (fun i => pattern.isPrefixOf (l.drop i))).getLast?

/-! ## JSON model (`json.loads`)

A recursive-descent model of Python's `json.loads` on the JSON grammar:
objects (later duplicate keys overwrite earlier ones, as in a Python dict),
arrays, strings with the standard escapes, numbers (kept as their raw token
text, since the pipeline never computes with them), `true`/`false`/`null`,
and the extra constants `NaN`/`Infinity`/`-Infinity` that Python accepts by
default (float values, so scalars to the validator's type checks).
`loads` succeeds exactly when one value parses and only whitespace follows. -/

/-- A Python value produced by `json.loads`. -/
inductive PyVal where
  | str (s : String)
  | num (raw : String)
  | bool (b : Bool)
  | null
  | arr (xs : List PyVal)
  | dict (ps : List (String × PyVal))

mutual

/-- Structural equality of parsed values (Python `==` on loaded JSON). -/
def pyValBeq : PyVal → PyVal → Bool
  | .str a, .str b => a == b
  | .num a, .num b => a == b
  | .bool a, .bool b => a == b
  | .null, .null => true
  | .arr xs, .arr ys => pyValListBeq xs ys
  | .dict ps, .dict qs => pyValDictBeq ps qs
  | _, _ => false

/-- Elementwise equality of value lists. -/
def pyValListBeq : List PyVal → List PyVal → Bool
  | [], [] => true
  | x :: xs, y :: ys => pyValBeq x y && pyValListBeq xs ys
  | _, _ => false

/-- Pairwise equality of object member lists. -/
def pyValDictBeq : List (String × PyVal) → List (String × PyVal) → Bool
  | [], [] => true
  | p :: ps, q :: qs => p.1 == q.1 && pyValBeq p.2 q.2 && pyValDictBeq ps qs
  | _, _ => false

end

instance : BEq PyVal := ⟨pyValBeq⟩

/-- JSON whitespace (` `, tab, newline, carriage return). -/
def jsonWs (c : Char) : Bool :=
  c = ' ' ∨ c = '\t' ∨ c = '\n' ∨ c = '\r'

/-- Skip JSON whitespace. -/
def skipWs (l : List Char) : List Char := l.dropWhile jsonWs

/-- Python-dict insertion: overwrite the value of an existing key in place,
else append the new pair. -/
def dictInsert (ps : List (String × PyVal)) (k : String) (v : PyVal) :
    List (String × PyVal) :=
  if ps.any (fun p => p.1 == k) then
    ps.map (fun p => if p.1 == k then (k, v) else p)
  else ps ++ [(k, v)]

/-- Hex digit value. -/
def hexVal (c : Char) : Option Nat :=
  if '0' ≤ c ∧ c ≤ '9' then some (c.toNat - '0'.toNat)
  else if 'a' ≤ c ∧ c ≤ 'f' then some (c.toNat - 'a'.toNat + 10)
  else if 'A' ≤ c ∧ c ≤ 'F' then some (c.toNat - 'A'.toNat + 10)
  else none

/-- Body of a JSON string after the opening quote: returns the decoded
characters and the remainder after the closing quote. -/
def parseStringBody : List Char → Option (List Char × List Char)
  | [] => none
  | '"' :: rest => some ([], rest)
  | '\\' :: 'u' :: h1 :: h2 :: h3 :: h4 :: rest =>
      match hexVal h1, hexVal h2, hexVal h3, hexVal h4 with
      | some a, some b, some c, some d =>
          (parseStringBody rest).map
            (fun p => (Char.ofNat (((a * 16 + b) * 16 + c) * 16 + d) :: p.1, p.2))
      | _, _, _, _ => none
  | '\\' :: e :: rest =>
      let esc : Option Char :=
        if e = '"' then some '"'
        else if e = '\\' then some '\\'
        else if e = '/' then some '/'
        else if e = 'b' then some '\x08'
        else if e = 'f' then some '\x0c'
        else if e = 'n' then some '\n'
        else if e = 'r' then some '\r'
        else if e = 't' then some '\t'
        else none
      match esc with
      | some c => (parseStringBody rest).map (fun p => (c :: p.1, p.2))
      | none => none
  | c :: rest =>
      if c.toNat < 0x20 then none
      else (parseStringBody rest).map (fun p => (c :: p.1, p.2))

/-- A JSON number token (sign, integer part without leading zeros, optional
fraction and exponent), returned as its raw text. -/
def parseNum (l : List Char) : Option (PyVal × List Char) :=
  let (sign, l1) : List Char × List Char :=
    match l with
    | '-' :: r => (['-'], r)
    | _ => ([], l)
  let intPart : Option (List Char × List Char) :=
    match l1 with
    | '0' :: r => some (['0'], r)
    | c :: _ =>
        if '1' ≤ c ∧ c ≤ '9' then
          some (l1.takeWhile Char.isDigit, l1.dropWhile Char.isDigit)
        else none
    | [] => none
  match intPart with
  | none => none
  | some (ip, l2) =>
      let (frac, l3) : List Char × List Char :=
        match l2 with
        | '.' :: r =>
            let ds := r.takeWhile Char.isDigit
            if ds.isEmpty then ([], l2) else ('.' :: ds, r.dropWhile Char.isDigit)
        | _ => ([], l2)
      let (ex, l4) : List Char × List Char :=
        match l3 with
        | e :: r =>
            if e = 'e' ∨ e = 'E' then
              let (sg, r1) : List Char × List Char :=
                match r with
                | s :: r2 => if s = '+' ∨ s = '-' then ([s], r2) else ([], r)
                | [] => ([], r)
              let ds := r1.takeWhile Char.isDigit
              if ds.isEmpty then ([], l3)
              else (e :: (sg ++ ds), r1.dropWhile Char.isDigit)
            else ([], l3)
        | [] => ([], l3)
      some (.num (sign ++ ip ++ frac ++ ex).asString, l4)

mutual

/-- Parse one JSON value at the current position (fuelled recursion). -/
def parseVal : Nat → List Char → Option (PyVal × List Char)
  | 0, _ => none
  | Nat.succ fuel, l =>
    match l with
    | 't' :: 'r' :: 'u' :: 'e' :: rest => some (.bool true, rest)
    | 'f' :: 'a' :: 'l' :: 's' :: 'e' :: rest => some (.bool false, rest)
    | 'n' :: 'u' :: 'l' :: 'l' :: rest => some (.null, rest)
    | 'N' :: 'a' :: 'N' :: rest => some (.num "NaN", rest)
    | 'I' :: 'n' :: 'f' :: 'i' :: 'n' :: 'i' :: 't' :: 'y' :: rest =>
        some (.num "Infinity", rest)
    | '-' :: 'I' :: 'n' :: 'f' :: 'i' :: 'n' :: 'i' :: 't' :: 'y' :: rest =>
        some (.num "-Infinity", rest)
    | '"' :: rest => (parseStringBody rest).map (fun p => (.str p.1.asString, p.2))
    | '[' :: rest =>
        (match skipWs rest with
        | ']' :: r2 => some (.arr [], r2)
        | r => parseArrItems fuel r [])
    | '\x7b' :: rest =>
        (match skipWs rest with
        | '\x7d' :: r2 => some (.dict [], r2)
        | r => parseObjItems fuel r [])
    | _ => parseNum l

/-- Parse the elements of a non-empty JSON array. -/
def parseArrItems : Nat → List Char → List PyVal → Option (PyVal × List Char)
  | 0, _, _ => none
  | Nat.succ fuel, l, acc =>
    match parseVal fuel l with
    | none => none
    | some (v, rest) =>
        match skipWs rest with
        | ',' :: r2 => parseArrItems fuel (skipWs r2) (acc ++ [v])
        | ']' :: r2 => some (.arr (acc ++ [v]), r2)
        | _ => none

/-- Parse the members of a non-empty JSON object. -/
def parseObjItems : Nat → List Char → List (String × PyVal) →
    Option (PyVal × List Char)
  | 0, _, _ => none
  | Nat.succ fuel, l, acc =>
    match l with
    | '"' :: rest =>
        (match parseStringBody rest with
        | none => none
        | some (k, r1) =>
            match skipWs r1 with
            | ':' :: r2 =>
                (match parseVal fuel (skipWs r2) with
                | none => none
                | some (v, r3) =>
                    let acc2 := dictInsert acc k.asString v
                    match skipWs r3 with
                    | ',' :: r4 => parseObjItems fuel (skipWs r4) acc2
                    | '\x7d' :: r4 => some (.dict acc2, r4)
                    | _ => none)
            | _ => none)
    | _ => none

end

/-- Model of `json.loads`: a single JSON value (including the `NaN` and
infinity constants), optionally surrounded by whitespace; anything else
(including trailing data) fails. -/
def jsonLoads (l : List Char) : Option PyVal :=
  match parseVal (2 * l.length + 2) (skipWs l) with
  | some (v, rest) => if skipWs rest = [] then some v else none
  | none => none

/-! ## Response validator (`app/utils/openai_logging.py`)

`ResponseValidator.validate_and_repair`, `_attempt_json_closure` and
`_attempt_recovery`.  Exceptions that escape the function (the uncaught
`TypeError` from `'r' in data` / `len(data['r'])` on unsuitable values) are
modelled by `Except`. -/

/-- A Python exception escaping `validate_and_repair`. -/
inductive PyErr where
  | typeError
  deriving DecidableEq, Repr

/-- Model of `ResponseValidator._attempt_json_closure(text)`: count unbalanced
brackets, drop a trailing comma, close an odd quote, then append the missing
`]` and `}` closers. -/
def attempt_json_closure (text : List Char) : List Char :=
  let open_brackets : Int := (text.count '\x7b' : Int) - (text.count '\x7d' : Int)
  let open_squares : Int := (text.count '[' : Int) - (text.count ']' : Int)
  let text1 :=
    if (pyRstripWs text).getLast? = some ',' then (pyRstripWs text).dropLast
    else text
  let text2 := if text1.count '"' % 2 ≠ 0 then text1 ++ ['"'] else text1
  text2 ++ List.replicate open_squares.toNat ']'
    ++ List.replicate open_brackets.toNat '\x7d'

/-- Model of `ResponseValidator._attempt_recovery(text, expected_count)`: truncate to
the last complete `},{` boundary and re-close. -/
def attempt_recovery (text : List Char) : List Char :=
  match pyRfind text ['\x7d', ',', '\x7b'] with
  | some i => if 0 < i then attempt_json_closure (text.take (i + 1)) else text
  | none => text

/-- Python `'r' in data`: key membership for dicts, element equality for
lists, substring for strings, `TypeError` otherwise. -/
def pyInR : PyVal → Except PyErr Bool
  | .dict ps => .ok (ps.any (fun p => p.1 == "r"))
  | .arr xs => .ok (xs.any (fun x => x == .str "r"))
  | .str s => .ok (s.contains 'r')
  | _ => .error .typeError

/-- Python `len(data['r'])`, evaluated when `'r' in data` held: only a dict
yields an item, and only a container/string item has a length. -/
def lenOfRItem : PyVal → Except PyErr Int
  | .dict ps =>
      (match ps.find? (fun p => p.1 == "r") with
      | some p =>
          match p.2 with
          | .arr xs => .ok xs.length
          | .str s => .ok s.length
          | .dict qs => .ok qs.length
          | _ => .error .typeError
      | none => .error .typeError)
  | _ => .error .typeError

/-- The text `validate_and_repair` tries to parse: the raw response, closed
by `_attempt_json_closure` first when it does not end in `}`. -/
def repairedInput (s : String) : List Char :=
  let cs := s.toList
  if ((pyStrip cs).getLast? == some '\x7d') = false then attempt_json_closure cs
  else cs

/-- Model of `ResponseValidator.validate_and_repair(response_text, expected_count)`
from `app/utils/openai_logging.py`.  Returns `(repaired_text, is_valid,
issues)`, or the uncaught `TypeError` the Python code raises when the parsed
value does not support the `'r'` membership or length check.  The
`json_error: ...` issue text is abbreviated to its fixed marker. -/
def validate_and_repair (s : String) (expected_count : Int) :
    Except PyErr (String × Bool × List String) :=
  let cs := s.toList
  let incomplete := ((pyStrip cs).getLast? == some '\x7d') = false
  let issues0 : List String := if incomplete then ["incomplete_json"] else []
  let text := repairedInput s
  match jsonLoads text with
  | some data =>
      (match pyInR data with
      | .error e => .error e
      | .ok false => .ok (text.asString, false, issues0 ++ ["missing_r_key"])
      | .ok true =>
          match lenOfRItem data with
          | .error e => .error e
          | .ok actual_count =>
              let issues := issues0 ++
                (if actual_count < expected_count then
                  ["incomplete_results: " ++ toString actual_count ++ "/"
                    ++ toString expected_count]
                else [])
              .ok (text.asString, issues.isEmpty, issues))
  | none =>
      let issues := issues0 ++ ["json_error"]
      let repaired := attempt_recovery text
      if repaired ≠ text then
        match jsonLoads repaired with
        | some _ => .ok (repaired.asString, false, issues ++ ["recovered"])
        | none => .ok (text.asString, false, issues)
      else .ok (text.asString, false, issues)

/-- A parsed value on which the validator's `'r' in data` and
`len(data['r'])` checks are type-correct (no `TypeError`). -/
def safeShape : PyVal → Bool
  | .dict ps =>
      (match ps.find? (fun p => p.1 == "r") with
      | some p =>
          match p.2 with
          | .arr _ => true
          | .str _ => true
          | .dict _ => true
          | _ => false
      | none => true)
  | .arr xs => ¬ xs.any (fun x => x == .str "r")
  | .str s => ¬ s.contains 'r'
  | _ => false

/-- Whether the closed/raw text the validator parses either fails to parse or
parses to a `safeShape` value. -/
def repairParseSafe (s : String) : Bool :=
  match jsonLoads (repairedInput s) with
  | some data => safeShape data
  | none => true

/-! ## More Python string primitives -/

/-- Python `text.split()` (inner worker): split on whitespace runs, dropping
empty pieces; `acc` holds the characters of the current word, reversed. -/
def pySplitAux : List Char → List Char → List (List Char)
  | [], acc => if acc.isEmpty then [] else [acc.reverse]
  | c :: cs, acc =>
      if pyIsSpace c then
        if acc.isEmpty then pySplitAux cs []
        else acc.reverse :: pySplitAux cs []
      else pySplitAux cs (c :: acc)

/-- Python `text.split()`. -/
def pySplit (l : List Char) : List (List Char) := pySplitAux l []

/-- Python `' '.join(text.split())`: collapse whitespace runs to single
spaces and trim both ends. -/
def pyCollapseWs (l : List Char) : List Char :=
  List.intercalate [' '] (pySplit l)

/-- Python `text.replace(old, new)` (inner worker, fuelled by the remaining
length; `old` is non-empty in every use in the repository). -/
def pyReplaceAux (old new : List Char) : Nat → List Char → List Char
  | 0, l => l
  | Nat.succ fuel, l =>
      if old ≠ [] ∧ old.isPrefixOf l then
        new ++ pyReplaceAux old new fuel (l.drop old.length)
      else
        match l with
        | [] => []
        | c :: cs => c :: pyReplaceAux old new fuel cs

/-- Python `text.replace(old, new)`: non-overlapping left-to-right
replacement. -/
def pyReplace (l old new : List Char) : List Char :=
  pyReplaceAux old new l.length l

/-- ASCII letter (the `[a-zA-Z]` class of `efficient_deduplication._is_trivial`). -/
def isAsciiAlpha (c : Char) : Bool :=
  ('a' ≤ c ∧ c ≤ 'z') ∨ ('A' ≤ c ∧ c ≤ 'Z')

/-! ## Text normalizer (`app/services/efficient_deduplication.py`)

`EfficientDeduplicationService._normalize_text`.  Python `str.lower` and
`unicodedata.normalize('NFD', ·)` are Unicode-table functions, passed in
as per-character maps `charLower` / `nfd`; `unicodedata.category(c) == 'Mn'`
is the predicate `isMark`.  String-level NFD also canonically reorders
combining marks, but every mark is dropped by the following filter, so the
per-character model yields the same filtered text. -/

/-- Model of `_normalize_text(text)`: lower-case, NFD-decompose and drop combining
marks, collapse whitespace, strip trailing sentence punctuation. -/
def normalize_text (charLower nfd : Char → List Char) (isMark : Char → Bool)
    (text : List Char) : List Char :=
  let lowered := text.flatMap charLower
  let stripped := (lowered.flatMap nfd).filter (fun c => !(isMark c))
  pyRstripSet ['.', ',', '!', '?', ';', ':'] (pyCollapseWs stripped)

/-! ## Fuzzy deduplication (`app/services/deduplication_service.py`)

`DeduplicationService.find_duplicates` with its helpers.  `hashlib.md5` and
`difflib.SequenceMatcher.ratio() >= threshold` are foreign functions, passed
in as `hashF` and `simF`.  The partition invariants proved below hold for
every choice of these parameters. -/

/-- Model of `_normalize_comment(comment)`: lower-case, strip, collapse whitespace,
then apply the fixed replacement chain. -/
def normalize_comment (charLower : Char → List Char) (comment : String) :
    String :=
  let normalized := pyCollapseWs (pyStrip (comment.toList.flatMap charLower))
  let replacements : List (List Char × List Char) :=
    [(['.'], []), ([','], []), (['!'], []), (['?'], []), (['"'], []),
     ([Char.ofNat 39], []),
     ("todo bien".toList, "bien".toList), ("muy bien".toList, "bien".toList),
     ("todo mal".toList, "mal".toList), ("muy mal".toList, "mal".toList),
     ("excelente servicio".toList, "excelente".toList),
     ("pesimo servicio".toList, "pesimo".toList),
     ("mal servicio".toList, "mal".toList),
     ("buen servicio".toList, "bien".toList)]
  (replacements.foldl (fun acc p => pyReplace acc p.1 p.2) normalized).asString

/-- Mutable state of the `find_duplicates` loop. -/
structure DedupState where
  unique_indices : List Nat
  duplicate_map : List (Nat × Nat)
  processed_hashes : List (String × Nat)
  deriving DecidableEq, Repr

/-- One iteration of the `for i, comment in enumerate(comments)` loop of
`DeduplicationService.find_duplicates`. -/
def findDupStep (charLower : Char → List Char) (hashF : String → String)
    (simF : String → String → Bool) (comments : List String)
    (st : DedupState) (i : Nat) : DedupState :=
  let comment := comments.getD i ""
  if comment = "" ∨ (pyStrip comment.toList).length < 5 then
    { st with unique_indices := st.unique_indices ++ [i] }
  else
    let normalized := normalize_comment charLower comment
    let comment_hash := hashF normalized
    match st.processed_hashes.find? (fun q => q.1 == comment_hash) with
    | some q => { st with duplicate_map := st.duplicate_map ++ [(i, q.2)] }
    | none =>
        match st.unique_indices.find? (fun u =>
          simF normalized (normalize_comment charLower (comments.getD u ""))) with
        | some u => { st with duplicate_map := st.duplicate_map ++ [(i, u)] }
        | none =>
            { unique_indices := st.unique_indices ++ [i]
              duplicate_map := st.duplicate_map
              processed_hashes := st.processed_hashes ++ [(comment_hash, i)] }

/-- Model of `DeduplicationService.find_duplicates(comments)`: returns
`(unique_indices, duplicate_map)`. -/
def find_duplicates (charLower : Char → List Char) (hashF : String → String)
    (simF : String → String → Bool) (comments : List String) :
    List Nat × List (Nat × Nat) :=
  let final := (List.range comments.length).foldl
    (findDupStep charLower hashF simF comments) ⟨[], [], []⟩
  (final.unique_indices, final.duplicate_map)

/-- Model of `filter_trivial_comments(comments, indices)` from
`app/services/deduplication_service.py`.  An index is kept unless its
stripped, lower-cased comment is a short boilerplate pattern or consists
only of punctuation, digits and spaces. -/
def filter_trivial_comments (charLower : Char → List Char)
    (comments : List String) (indices : List Nat) : List Nat :=
  let patterns : List String :=
    ["ok", "bien", "mal", "regular", ".", "...", "si", "no", "gracias",
     "nada", "todo bien", "sin comentarios", "n/a", "-", "na", "ninguno",
     "perfecto", "excelente", "pesimo", "horrible", "bueno", "malo",
     "normal", "üëç", "üëé", "x"]
  let punctSet : List Char := ['.', ',', '!', '?', ';', ':', '-', '1', '2',
    '3', '4', '5', '6', '7', '8', '9', '0', ' ']
  indices.filter (fun idx =>
    let comment := ((pyStrip (comments.getD idx "").toList).flatMap charLower).asString
    if comment.length < 10 ∧ patterns.contains comment then false
    else ¬ comment.toList.all (fun c => punctSet.contains c))

/-! ## Hash-based deduplication (`app/services/efficient_deduplication.py`)

`EfficientDeduplicationService.deduplicate_comments` with `_quick_similarity`
and `_is_trivial`.  `hashlib.sha256` is passed in as `hashF`. -/

/-- Model of `_quick_similarity(text1, text2)`: length-ratio pre-check, then word-set
Jaccard similarity; floats are rationals. -/
def quick_similarity (text1 text2 : String) : ℚ :=
  let len_diff : Nat := max text1.length text2.length - min text1.length text2.length
  let max_len : Nat := max text1.length text2.length
  if max_len = 0 then 1
  else if (len_diff : ℚ) / (max_len : ℚ) > 3 / 10 then 0
  else
    let words1 := ((pySplit text1.toList).map List.asString).toFinset
    let words2 := ((pySplit text2.toList).map List.asString).toFinset
    if words1 = ∅ ∧ words2 = ∅ then 1
    else if words1 = ∅ ∨ words2 = ∅ then 0
    else ((words1 ∩ words2).card : ℚ) / ((words1 ∪ words2).card : ℚ)

/-- Model of `_is_trivial(text)`: too short, letter-free, or a known boilerplate
phrase. -/
def is_trivial (charLower : Char → List Char) (text : String) : Bool :=
  let clean := pyStrip text.toList
  if clean.length < 3 then true
  else if ¬ clean.isEmpty ∧ clean.all (fun c => !(isAsciiAlpha c)) then true
  else
    let phrases : List String :=
      ["ok", "si", "no", "yes", "bien", "mal", "bueno", "malo", "gracias",
       "thanks", "none", "nada", "nothing", "n/a", "na", "sin comentarios",
       "no comment"]
    phrases.contains (clean.flatMap charLower).asString

/-- Mutable state of phase 1 of `deduplicate_comments`: `filtered` keeps the
`(original comment, original index)` pairs of accepted uniques, mirroring the
parallel `filtered_comments` / `filtered_indices` lists. -/
structure EffDedupState where
  seen_hashes : List (String × Nat)
  seen_normalized : List (String × List Nat)
  filtered : List (String × Nat)
  filtered_ratings : List Int
  duplicate_map : List (Nat × Nat)
  deriving DecidableEq, Repr

/-- One iteration of the phase-1 loop of
`EfficientDeduplicationService.deduplicate_comments`. -/
def effDedupStep (charLower nfd : Char → List Char) (isMark : Char → Bool)
    (hashF : String → String) (similarity_threshold : ℚ)
    (comments : List String) (ratings : List Int)
    (st : EffDedupState) (idx : Nat) : EffDedupState :=
  let original := comments.getD idx ""
  let normalized_text := (normalize_text charLower nfd isMark original.toList).asString
  let text_hash := hashF normalized_text
  match st.seen_hashes.find? (fun q => q.1 == text_hash) with
  | some q => { st with duplicate_map := st.duplicate_map ++ [(idx, q.2)] }
  | none =>
      let text_key := pyTake 50 normalized_text
      let bucket := ((st.seen_normalized.find? (fun q => q.1 == text_key)).map
        (fun q => q.2)).getD []
      match bucket.find? (fun similar_idx =>
        quick_similarity normalized_text
          ((normalize_text charLower nfd isMark
            (comments.getD similar_idx "").toList).asString)
          > similarity_threshold) with
      | some similar_idx =>
          { st with duplicate_map := st.duplicate_map ++ [(idx, similar_idx)] }
      | none =>
          { seen_hashes := st.seen_hashes ++ [(text_hash, idx)]
            seen_normalized :=
              if st.seen_normalized.any (fun q => q.1 == text_key) then
                st.seen_normalized.map (fun q =>
                  if q.1 == text_key then (q.1, q.2 ++ [idx]) else q)
              else st.seen_normalized ++ [(text_key, [idx])]
            filtered := st.filtered ++ [(original, idx)]
            filtered_ratings :=
              if ratings ≠ [] then st.filtered_ratings ++ [ratings.getD idx 0]
              else st.filtered_ratings
            duplicate_map := st.duplicate_map }

/-- The tuple returned by `deduplicate_comments`: unique comments, their
ratings, their original indices, the duplicate map, and (from `dedup_info` /
`trivial_map`) the indices removed as trivial in phase 2. -/
structure EffDedupResult where
  final_comments : List String
  final_ratings : List Int
  final_indices : List Nat
  duplicate_map : List (Nat × Nat)
  trivial_indices : List Nat
  deriving DecidableEq, Repr

/-- Model of `EfficientDeduplicationService.deduplicate_comments(comments, ratings,
similarity_threshold)`: hash/bucket phase 1, then the phase-2 trivial
filter. -/
def deduplicate_comments (charLower nfd : Char → List Char)
    (isMark : Char → Bool) (hashF : String → String)
    (comments : List String) (ratings : List Int)
    (similarity_threshold : ℚ) : EffDedupResult :=
  if comments.isEmpty then ⟨[], [], [], [], []⟩
  else
    let phase1 := (List.range comments.length).foldl
      (effDedupStep charLower nfd isMark hashF similarity_threshold comments ratings)
      ⟨[], [], [], [], []⟩
    let final := phase1.filtered.filter (fun p => !(is_trivial charLower p.1))
    { final_comments := final.map (fun p => p.1)
      final_ratings :=
        if phase1.filtered_ratings = [] then []
        else ((phase1.filtered.zip phase1.filtered_ratings).filter
          (fun p => !(is_trivial charLower p.1.1))).map (fun p => p.2)
      final_indices := final.map (fun p => p.2)
      duplicate_map := phase1.duplicate_map
      trivial_indices :=
        (phase1.filtered.filter (fun p => is_trivial charLower p.1)).map
          (fun p => p.2) }

/-! ## Data preparation and prompt truncation

`prepare_analysis_data` (`app/services/analysis_service.py`) sends
`all_comments[i][:150]` for the surviving representative indices;
`OpenAIAnalyzer._build_optimized_user_prompt`
(`app/adapters/openai/analyzer.py`) formats each comment as
`f"{i+1}.{c[:150]}"`. -/

/-- The `comments_for_api` list of `prepare_analysis_data`: deduplicate,
drop trivial representatives, truncate each survivor to 150 characters. -/
def prepare_comments_for_api (charLower : Char → List Char)
    (hashF : String → String) (simF : String → String → Bool)
    (all_comments : List String) : List String :=
  let dedup := find_duplicates charLower hashF simF all_comments
  let filtered_indices := filter_trivial_comments charLower all_comments dedup.1
  filtered_indices.map (fun i => pyTake 150 (all_comments.getD i ""))

/-- Model of `_build_optimized_user_prompt(comments)`: newline-joined
`f"{i+1}.{c[:150]}"` lines. -/
def build_optimized_user_prompt (comments : List String) : String :=
  String.intercalate "\n"
    (comments.enum.map (fun p => toString (p.1 + 1) ++ "." ++ pyTake 150 p.2))

/-! ## Concrete parameter instantiations

Concrete instances of the foreign-function parameters, used to evaluate the
models on concrete inputs.  On the ASCII inputs they are applied to below,
they agree with the Python library functions they stand for. -/

/-- ASCII lower-casing; agrees with `str.lower` on ASCII text. -/
def asciiCharLower (c : Char) : List Char :=
  if 'A' ≤ c ∧ c ≤ 'Z' then [Char.ofNat (c.toNat + 32)] else [c]

/-- Identity decomposition; agrees with `unicodedata.normalize('NFD', ·)` on
ASCII text, which NFD leaves unchanged. -/
def nfdId (c : Char) : List Char := [c]

/-- No character is a combining mark; agrees with
`unicodedata.category(c) == 'Mn'` on ASCII text. -/
def noCombiningMark (_ : Char) : Bool := false

/-- Identity content hash; like `md5`/`sha256` hex digests, it is injective
on the (collision-free) inputs used below. -/
def hashId (s : String) : String := s

/-- Similarity by exact equality of the normalized texts; stands for a
`SequenceMatcher.ratio() >= threshold` test in concrete evaluations. -/
def simEq (a b : String) : Bool := a == b

/-! ## Loop invariants of the deduplication services -/

/-- Invariant of the `find_duplicates` loop after processing the indices in
`processed`: those indices are partitioned between `unique_indices` and the
keys of `duplicate_map`, both without repetition, and every duplicate target
and recorded hash points at a member of `unique_indices`. -/
def DedupInv (processed : List Nat) (st : DedupState) : Prop :=
  (∀ k, k ∈ processed ↔
    (k ∈ st.unique_indices ∨ k ∈ st.duplicate_map.map Prod.fst)) ∧
  (∀ k, ¬ (k ∈ st.unique_indices ∧ k ∈ st.duplicate_map.map Prod.fst)) ∧
  st.unique_indices.Nodup ∧
  (st.duplicate_map.map Prod.fst).Nodup ∧
  (∀ p ∈ st.duplicate_map, p.2 ∈ st.unique_indices) ∧
  (∀ q ∈ st.processed_hashes, q.2 ∈ st.unique_indices)

/-- Invariant of the phase-1 loop of `deduplicate_comments`: processed
indices are partitioned between the accepted uniques (`filtered`) and the
duplicate-map keys, and every duplicate target, recorded hash and bucket
member points at an accepted unique. -/
def EffDedupInv (processed : List Nat) (st : EffDedupState) : Prop :=
  (∀ k, k ∈ processed ↔
    (k ∈ st.filtered.map Prod.snd ∨ k ∈ st.duplicate_map.map Prod.fst)) ∧
  (∀ k, ¬ (k ∈ st.filtered.map Prod.snd ∧ k ∈ st.duplicate_map.map Prod.fst)) ∧
  (st.filtered.map Prod.snd).Nodup ∧
  (st.duplicate_map.map Prod.fst).Nodup ∧
  (∀ p ∈ st.duplicate_map, p.2 ∈ st.filtered.map Prod.snd) ∧
  (∀ q ∈ st.seen_hashes, q.2 ∈ st.filtered.map Prod.snd) ∧
  (∀ q ∈ st.seen_normalized, ∀ j ∈ q.2, j ∈ st.filtered.map Prod.snd)

/-- A character list in whitespace-collapsed normal form: an interleaving of
non-empty, whitespace-free words separated by single spaces (the shape
`' '.join(words)` produces). -/
def IsWords (l : List Char) : Prop :=
  ∃ ws : List (List Char),
    (∀ w ∈ ws, w ≠ [] ∧ ∀ c ∈ w, pyIsSpace c = false) ∧
    l = List.intercalate [' '] ws

/-!
Theorems: one main theorem per claim of the specification review, preceded
by the helper lemmas they share.
-/

/-- The row built for index `idx` always records `index = idx`. -/
theorem rowFor_index (api_results : List α) (all_comments : List String)
    (filtered_indices : List Nat) (duplicate_map : List (Nat × Nat))
    (all_ratings : List Int) (idx : Nat) :
    (rowFor api_results all_comments filtered_indices duplicate_map
      all_ratings idx).index = idx := by
  unfold rowFor
  rcases h1 : dictLookup duplicate_map idx with _ | rep
  · rcases h2 : dictLookup (filtered_indices.zip api_results) idx with _ | a <;>
      simp [h1, h2]
  · rcases h2 : dictLookup (filtered_indices.zip api_results) rep with _ | a <;>
      simp [h1, h2]

/-- The expander maps index `i` of `range N` to `rowFor … i`. -/
theorem expand_get (api_results : List α) (all_comments : List String)
    (filtered_indices : List Nat) (duplicate_map : List (Nat × Nat))
    (all_ratings : List Int) (i : Nat)
    (h : i < (expand_results_with_duplicates api_results all_comments
      filtered_indices duplicate_map all_ratings).length) :
    (expand_results_with_duplicates api_results all_comments filtered_indices
      duplicate_map all_ratings).get ⟨i, h⟩
      = rowFor api_results all_comments filtered_indices duplicate_map
          all_ratings i := by
  simp [expand_results_with_duplicates]

/-- C1.  For every input to the result expander, the output has one row per
original comment, the `i`-th row carries index `i` (so the row indices are
exactly `0, …, N-1` in ascending order and no original index is dropped or
repeated); a representative with an API result keeps it with
`is_duplicate = False`, a duplicate whose representative has a result gets a
copy marked `is_duplicate = True`, and a trivial/missing row gets the
synthesized neutral default. -/
theorem expand_results_round_trip (api_results : List α)
    (all_comments : List String) (filtered_indices : List Nat)
    (duplicate_map : List (Nat × Nat)) (all_ratings : List Int)
    (i : Nat) (h : i < all_comments.length) :
    (expand_results_with_duplicates api_results all_comments filtered_indices
      duplicate_map all_ratings).length = all_comments.length ∧
    (expand_results_with_duplicates api_results all_comments filtered_indices
      duplicate_map all_ratings).map (fun row => row.index)
      = List.range all_comments.length ∧
    ((expand_results_with_duplicates api_results all_comments filtered_indices
      duplicate_map all_ratings).get ⟨i, by simpa [expand_results_with_duplicates]⟩).index = i ∧
    (∀ rep a, dictLookup duplicate_map i = some rep →
      dictLookup (filtered_indices.zip api_results) rep = some a →
      ((expand_results_with_duplicates api_results all_comments filtered_indices
        duplicate_map all_ratings).get
          ⟨i, by simpa [expand_results_with_duplicates]⟩).payload
        = .fromApi a true) ∧
    (∀ a, dictLookup duplicate_map i = none →
      dictLookup (filtered_indices.zip api_results) i = some a →
      ((expand_results_with_duplicates api_results all_comments filtered_indices
        duplicate_map all_ratings).get
          ⟨i, by simpa [expand_results_with_duplicates]⟩).payload
        = .fromApi a false) ∧
    (∀ rep, dictLookup duplicate_map i = some rep →
      dictLookup (filtered_indices.zip api_results) rep = none →
      ((expand_results_with_duplicates api_results all_comments filtered_indices
        duplicate_map all_ratings).get
          ⟨i, by simpa [expand_results_with_duplicates]⟩).payload
        = .defaultResult) ∧
    (dictLookup duplicate_map i = none →
      dictLookup (filtered_indices.zip api_results) i = none →
      ((expand_results_with_duplicates api_results all_comments filtered_indices
        duplicate_map all_ratings).get
          ⟨i, by simpa [expand_results_with_duplicates]⟩).payload
        = .defaultResult) := by
  refine ⟨by simp [expand_results_with_duplicates], ?_, ?_, ?_, ?_, ?_, ?_⟩
  · rw [expand_results_with_duplicates, List.map_map]
    have : ∀ a ∈ List.range all_comments.length,
        ((fun row => FinalRow.index row) ∘
          rowFor api_results all_comments filtered_indices duplicate_map all_ratings) a
        = id a := by
      intro a _
      simp [rowFor_index]
    rw [List.map_congr_left this, List.map_id]
  · rw [expand_get]
    exact rowFor_index ..
  · intro rep a h1 h2
    rw [expand_get]
    simp [rowFor, h1, h2]
  · intro a h1 h2
    rw [expand_get]
    simp [rowFor, h1, h2]
  · intro rep h1 h2
    rw [expand_get]
    simp [rowFor, h1, h2]
  · intro h1 h2
    rw [expand_get]
    simp [rowFor, h1, h2]

/-- Witness for C1 at a concrete input: two comments, the second a duplicate
of the first, which has an API result. -/
theorem expand_results_round_trip_witness :
    (0 : Nat) < (["buen servicio", "buen servicio"] : List String).length ∧
    (expand_results_with_duplicates [37] ["buen servicio", "buen servicio"]
      [0] [(1, 0)] [9, 9]).map (fun row => row.index) = List.range 2 := by
  refine ⟨by decide, ?_⟩
  exact (expand_results_round_trip [37] ["buen servicio", "buen servicio"]
    [0] [(1, 0)] [9, 9] 0 (by decide)).2.1

/-- C3.  The NPS calculator's formulas: the documented sample counts give
`-20.0` (standard) and `40.0` (shifted); for every non-empty count triple the
standard method computes `100·(p−d)/total` and the shifted method
`((p−d)/total + 1)·50`; for all-zero counts the standard score is `0` and the
modular metrics report the neutral no-data score `50`. -/
theorem nps_formulas (p pa d : Nat) (pw : ℚ) (method : NPSMethod)
    (h : 0 < p + pa + d) :
    calculate_nps_score 30 20 50 .standard pw = -20 ∧
    calculate_nps_score 30 20 50 .shifted pw = 40 ∧
    calculate_nps_score p pa d .standard pw
      = 100 * ((p : ℚ) - d) / ((p : ℚ) + pa + d) ∧
    calculate_nps_score p pa d .shifted pw
      = (((p : ℚ) - d) / ((p : ℚ) + pa + d) + 1) * 50 ∧
    calculate_nps_score 0 0 0 .standard pw = 0 ∧
    (calculate_nps_metrics_modular 0 0 0 method pw).score = 50 := by
  have htot : ((p + pa + d : Nat) : ℚ) = (p : ℚ) + pa + d := by push_cast; ring
  have hne : ¬ (p + pa + d = 0) := h.ne'
  refine ⟨by norm_num [calculate_nps_score], by norm_num [calculate_nps_score], ?_, ?_,
    by norm_num [calculate_nps_score], by norm_num [calculate_nps_metrics_modular]⟩
  · simp only [calculate_nps_score, hne, if_false, htot]
    ring
  · simp only [calculate_nps_score, hne, if_false, htot]

/-- Witness for C3 at `p = 1, pa = 0, d = 0`. -/
theorem nps_formulas_witness :
    (0 : Nat) < 1 + 0 + 0 ∧
    calculate_nps_score 1 0 0 .standard 0
      = 100 * ((1 : ℚ) - 0) / ((1 : ℚ) + 0 + 0) :=
  ⟨by decide, (nps_formulas 1 0 0 0 .standard (by decide)).2.2.1⟩

/-- C7 (code bug).  `analyze_all_batches` appends batch results in
*completion* order: with two one-result batches where batch 1 completes
before batch 0 (a legal completion order), the combined list is
`[batch1, batch0]`, not the submission-order concatenation. -/
theorem analyze_all_batches_completion_order :
    analyze_all_batches [[10], [20]] [1, 0] = ([20, 10] : List Nat) ∧
    List.Perm [1, 0] (List.range 2) ∧
    analyze_all_batches [[10], [20]] [1, 0]
      ≠ ([[10], [20]] : List (List Nat)).flatten := by
  refine ⟨rfl, by decide, by decide⟩

/-- C8 (counterexample).  With one batch succeeded and one still pending
when the wait window closes, `analyze_feedback` raises
`TimeoutError("Batch processing timeout: 1/2 completed")` instead of
returning the available outcome. -/
theorem collect_batch_results_timeout_counterexample :
    collect_batch_results [BatchTaskState.succeeded (0 : Nat),
      BatchTaskState.pending] = .error ⟨1, 2⟩ := by
  rfl

/-- C8 (amended).  If any batch is still pending when the overall wait limit
elapses, the run is fatal: no merged result list is returned and the code
raises `TimeoutError` with the completed/total counts; only when every batch
has reported does it merge, collecting the successful batches in submission
order and skipping failed ones. -/
theorem collect_batch_results_timeout_fatal (states : List (BatchTaskState α))
    (h : BatchTaskState.pending ∈ states) :
    (∀ res : List α, collect_batch_results states ≠ .ok res) ∧
    collect_batch_results states
      = .error ⟨(states.filter (fun s => s.isReady)).length, states.length⟩ ∧
    (∀ states' : List (BatchTaskState α), BatchTaskState.pending ∉ states' →
      collect_batch_results states'
        = .ok (states'.filterMap (fun s =>
            match s with
            | .succeeded r => some r
            | _ => none))) := by
  have hall : states.all (fun s => s.isReady) = false := by
    rw [List.all_eq_false]
    exact ⟨_, h, by simp [BatchTaskState.isReady]⟩
  refine ⟨?_, ?_, ?_⟩
  · intro res
    simp [collect_batch_results, hall]
  · simp [collect_batch_results, hall]
  · intro states' h'
    have hall' : states'.all (fun s => s.isReady) = true := by
      rw [List.all_eq_true]
      intro s hs
      cases s with
      | pending => exact absurd hs h'
      | succeeded r => rfl
      | failed => rfl
    simp [collect_batch_results, hall']

/-- Witness for C8 (amended) at the concrete counterexample state. -/
theorem collect_batch_results_timeout_fatal_witness :
    BatchTaskState.pending ∈ [BatchTaskState.succeeded (0 : Nat),
      BatchTaskState.pending] ∧
    collect_batch_results [BatchTaskState.succeeded (0 : Nat),
      BatchTaskState.pending] = .error ⟨1, 2⟩ :=
  ⟨by decide,
    (collect_batch_results_timeout_fatal
      [BatchTaskState.succeeded (0 : Nat), BatchTaskState.pending]
      (by decide)).2.1.trans (by rfl)⟩

/-- A batch flushed by `if current_batch: batches.append(current_batch)` is
the (non-empty) current batch. -/
theorem mem_flush {cur b : List String}
    (hb : b ∈ (if cur.isEmpty then ([] : List (List String)) else [cur])) :
    b = cur ∧ cur ≠ [] := by
  rcases cur with _ | ⟨x, xs⟩
  · simp at hb
  · simp at hb
    exact ⟨hb, by simp⟩

/-- Flattening the optional flush of the current batch yields the current
batch. -/
theorem flush_flatten (cur : List String) :
    (if cur.isEmpty then ([] : List (List String)) else [cur]).flatten = cur := by
  rcases cur with _ | ⟨x, xs⟩ <;> simp

/-- Invariant of the greedy packing loop: provided every pending pair carries
the token count of its comment, every batch already emitted is within budget
or a single over-budget comment, and the current batch is within budget, the
same holds of every batch in the final output, and no comment is lost. -/
theorem batchLoop_invariant (count_fn : String → Nat) (maxB : Nat) (avail : Int)
    (hmax : 1 ≤ maxB) (pairs : List (String × Nat)) :
    ∀ (batches : List (List String)) (cur : List String),
    (∀ p ∈ pairs, p.2 = count_fn p.1) →
    (∀ b ∈ batches, (b.length ≤ maxB ∧ ((b.map count_fn).sum : Int) ≤ avail) ∨
       ∃ c, b = [c] ∧ avail < (count_fn c : Int)) →
    (cur = [] ∨ (cur.length ≤ maxB ∧ ((cur.map count_fn).sum : Int) ≤ avail)) →
    (∀ b ∈ batchLoop maxB avail pairs batches cur (cur.map count_fn).sum,
       (b.length ≤ maxB ∧ ((b.map count_fn).sum : Int) ≤ avail) ∨
       ∃ c, b = [c] ∧ avail < (count_fn c : Int)) ∧
    (batchLoop maxB avail pairs batches cur (cur.map count_fn).sum).flatten
      = batches.flatten ++ cur ++ pairs.map (fun p => p.1) := by
  induction pairs with
  | nil =>
      intro batches cur hpairs hbatches hcur
      constructor
      · intro b hb
        rw [batchLoop] at hb
        rcases List.mem_append.mp hb with hb | hb
        · exact hbatches b hb
        · obtain ⟨rfl, hne⟩ := mem_flush hb
          rcases hcur with hcur | hcur
          · exact absurd hcur hne
          · exact Or.inl hcur
      · rw [batchLoop, List.flatten_append, flush_flatten]
        simp
  | cons p rest ih =>
      intro batches cur hpairs hbatches hcur
      obtain ⟨c, t⟩ := p
      have ht : t = count_fn c := hpairs (c, t) (by simp)
      have hrest : ∀ q ∈ rest, q.2 = count_fn q.1 := fun q hq =>
        hpairs q (List.mem_cons_of_mem _ hq)
      rw [batchLoop]
      by_cases hover : (t : Int) > avail
      · rw [if_pos hover]
        have hbatches' : ∀ b ∈ (batches ++ (if cur.isEmpty then [] else [cur])) ++ [[c]],
            (b.length ≤ maxB ∧ ((b.map count_fn).sum : Int) ≤ avail) ∨
            ∃ c', b = [c'] ∧ avail < (count_fn c' : Int) := by
          intro b hb
          rcases List.mem_append.mp hb with hb | hb
          · rcases List.mem_append.mp hb with hb | hb
            · exact hbatches b hb
            · obtain ⟨rfl, hne⟩ := mem_flush hb
              rcases hcur with hcur | hcur
              · exact absurd hcur hne
              · exact Or.inl hcur
          · simp at hb
            exact Or.inr ⟨c, hb, ht ▸ hover⟩
        obtain ⟨ha, hjoin⟩ := ih ((batches ++ (if cur.isEmpty then [] else [cur])) ++ [[c]])
          [] hrest hbatches' (Or.inl rfl)
        simp only [List.map_nil, List.sum_nil] at ha hjoin
        refine ⟨ha, ?_⟩
        rw [hjoin, List.flatten_append, List.flatten_append, flush_flatten]
        simp
      · rw [if_neg hover]
        by_cases hcond : (((cur.map count_fn).sum + t : Int) > avail ∨
            maxB ≤ cur.length) ∧ ¬ cur.isEmpty
        · rw [if_pos hcond]
          have hcurne : cur ≠ [] := fun h => hcond.2 (by simp [h])
          have hcurok : cur.length ≤ maxB ∧ ((cur.map count_fn).sum : Int) ≤ avail := by
            rcases hcur with hcur | hcur
            · exact absurd hcur hcurne
            · exact hcur
          have hbatches' : ∀ b ∈ batches ++ [cur],
              (b.length ≤ maxB ∧ ((b.map count_fn).sum : Int) ≤ avail) ∨
              ∃ c', b = [c'] ∧ avail < (count_fn c' : Int) := by
            intro b hb
            rcases List.mem_append.mp hb with hb | hb
            · exact hbatches b hb
            · simp at hb
              exact Or.inl (hb ▸ hcurok)
          have hnew : ([c] : List String) = [] ∨
              (([c] : List String).length ≤ maxB ∧
                ((([c] : List String).map count_fn).sum : Int) ≤ avail) := by
            refine Or.inr ⟨by simpa using hmax, ?_⟩
            simp only [List.map_cons, List.map_nil, List.sum_cons, List.sum_nil,
              Nat.add_zero]
            omega
          have hsum : t = (([c] : List String).map count_fn).sum := by simp [ht]
          obtain ⟨ha, hjoin⟩ := ih (batches ++ [cur]) [c] hrest hbatches' hnew
          rw [hsum]
          refine ⟨ha, ?_⟩
          rw [hjoin]
          simp
        · rw [if_neg hcond]
          have hcurok' : (cur ++ [c]) = [] ∨
              ((cur ++ [c]).length ≤ maxB ∧
                (((cur ++ [c]).map count_fn).sum : Int) ≤ avail) := by
            refine Or.inr ?_
            rcases hcur with hcur | hcur
            · subst hcur
              refine ⟨by simpa using hmax, ?_⟩
              simp only [List.nil_append, List.map_cons, List.map_nil,
                List.sum_cons, List.sum_nil, Nat.add_zero]
              omega
            · by_cases hemp : cur.isEmpty
              · rw [List.isEmpty_iff.mp hemp]
                refine ⟨by simpa using hmax, ?_⟩
                simp only [List.nil_append, List.map_cons, List.map_nil,
                  List.sum_cons, List.sum_nil, Nat.add_zero]
                omega
              · have hnc : ¬ (((cur.map count_fn).sum + t : Int) > avail ∨
                    maxB ≤ cur.length) := fun hor => hcond ⟨hor, hemp⟩
                push_neg at hnc
                refine ⟨?_, ?_⟩
                · simp only [List.length_append, List.length_cons,
                    List.length_nil]
                  omega
                · simp only [List.map_append, List.map_cons, List.map_nil,
                    List.sum_append, List.sum_cons, List.sum_nil, Nat.add_zero]
                  push_cast
                  push_cast at hnc
                  omega
          have hsum : (cur.map count_fn).sum + t
              = (((cur ++ [c]) : List String).map count_fn).sum := by
            simp [ht]
          obtain ⟨ha, hjoin⟩ := ih batches (cur ++ [c]) hrest hbatches hcurok'
          rw [hsum]
          refine ⟨ha, ?_⟩
          rw [hjoin]
          simp

/-- C2.  For every list of comments, token counter and budget, each batch
produced by `optimize_batch_size` either holds at most `MAX_BATCH_SIZE`
comments whose token estimates sum to at most the available budget
(`max_tokens_per_batch - 2000` reserved tokens), or is a single comment whose
own estimate alone exceeds that budget; and the concatenation of all batches
is exactly the (1500-character-truncated) comment list — no comment is
dropped. -/
theorem optimize_batch_size_budget_invariant (count_fn : String → Nat)
    (comments : List String) (max_tokens_per_batch : Int) (max_batch_size : Nat)
    (hmax : 1 ≤ max_batch_size) :
    (∀ b ∈ optimize_batch_size count_fn comments max_tokens_per_batch
        max_batch_size,
      (b.length ≤ max_batch_size ∧
        ((b.map count_fn).sum : Int) ≤ max_tokens_per_batch - 2000) ∨
      ∃ c, b = [c] ∧ max_tokens_per_batch - 2000 < (count_fn c : Int)) ∧
    (optimize_batch_size count_fn comments max_tokens_per_batch
        max_batch_size).flatten = comments.map (pyTake 1500) := by
  have hpairs : ∀ p ∈ comments.map (fun comment =>
      (pyTake 1500 comment, count_fn (pyTake 1500 comment))),
      p.2 = count_fn p.1 := by
    intro p hp
    obtain ⟨c, _, rfl⟩ := List.mem_map.mp hp
    rfl
  obtain ⟨ha, hjoin⟩ := batchLoop_invariant count_fn max_batch_size
    (max_tokens_per_batch - 2000) hmax
    (comments.map (fun comment =>
      (pyTake 1500 comment, count_fn (pyTake 1500 comment))))
    [] [] hpairs (by simp) (Or.inl rfl)
  simp only [List.map_nil, List.sum_nil] at ha hjoin
  constructor
  · intro b hb
    exact ha b hb
  · rw [show (optimize_batch_size count_fn comments max_tokens_per_batch
        max_batch_size) = batchLoop max_batch_size (max_tokens_per_batch - 2000)
        (comments.map (fun comment =>
          (pyTake 1500 comment, count_fn (pyTake 1500 comment)))) [] [] 0
      from rfl]
    rw [hjoin]
    simp [List.map_map, Function.comp]

/-- Witness for C2 at `MAX_BATCH_SIZE = 50`, the default 3000-token budget,
the `estimate_tokens` counter and two short comments. -/
theorem optimize_batch_size_budget_invariant_witness :
    (1 : Nat) ≤ 50 ∧
    (optimize_batch_size estimate_tokens ["bien", "mal servicio"] 3000
      50).flatten = (["bien", "mal servicio"] : List String).map (pyTake 1500) :=
  ⟨by decide,
    (optimize_batch_size_budget_invariant estimate_tokens
      ["bien", "mal servicio"] 3000 50 (by decide)).2⟩

/-- C4 (counterexample).  `validate_and_repair` can raise for malformed
input: on `"5,"` (which is not valid JSON) the closure step drops the
trailing comma, `json.loads` then yields the integer `5`, and the membership
check `'r' in data` raises an uncaught `TypeError`.  Likewise on an object
whose `"r"` member is the float constant `NaN` (accepted by `json.loads` by
default), where `len(data['r'])` raises, and on `"5,"` followed by the
file-separator control character, which Python's `rstrip` treats as
whitespace. -/
theorem validate_and_repair_raises_counterexample :
    validate_and_repair "5," 1 = .error .typeError ∧
    validate_and_repair "\x7b\"r\": NaN\x7d" 1 = .error .typeError ∧
    validate_and_repair "5,\x1c" 1 = .error .typeError := by
  refine ⟨rfl, rfl, rfl⟩

/-- C4 (amended).  On the documented truncated response the validator returns
(for every expected count) parseable repaired JSON containing the first
complete array element, `is_fully_valid = False` and a non-empty issue list;
and for malformed input it returns a best-effort triple without raising
*provided* the text it parses does not load as a value on which the `'r'`
membership or length check is a Python type error (a bare scalar — numbers,
the `NaN`/`Infinity` constants, booleans, `null` —, a string containing `r`,
an array containing the string `"r"`, or an object whose `"r"` member is a
scalar — on those, as the counterexample shows, it raises `TypeError`). -/
theorem validate_and_repair_best_effort (s : String) (n : Int)
    (hmal : jsonLoads s.toList = none)
    (hsafe : repairParseSafe s = true) :
    (∀ m : Int, validate_and_repair
        "\x7b\"r\":[\x7b\"c\":0.5,\"p\":\"precio\"\x7d,\x7b\"c\":0.8,\"p\":\"ser" m
      = .ok ("\x7b\"r\":[\x7b\"c\":0.5,\"p\":\"precio\"\x7d]\x7d", false,
          ["incomplete_json", "json_error", "recovered"])) ∧
    jsonLoads "\x7b\"r\":[\x7b\"c\":0.5,\"p\":\"precio\"\x7d]\x7d".toList
      = some (.dict [("r",
          .arr [.dict [("c", .num "0.5"), ("p", .str "precio")]])]) ∧
    ∃ t b i, validate_and_repair s n = .ok (t, b, i) := by
  refine ⟨fun m => rfl, rfl, ?_⟩
  rw [repairParseSafe] at hsafe
  rcases hres : validate_and_repair s n with e | ⟨t, b, i⟩
  · exfalso
    rw [validate_and_repair] at hres
    split at hres
    next data heq =>
        rw [heq] at hsafe
        have hsafe' : safeShape data = true := by simpa using hsafe
        split at hres
        next e' heq2 =>
            cases data with
            | dict ps => simp [pyInR] at heq2
            | arr xs => simp [pyInR] at heq2
            | str s2 => simp [pyInR] at heq2
            | num r => simp [safeShape] at hsafe'
            | bool b => simp [safeShape] at hsafe'
            | null => simp [safeShape] at hsafe'
        next heq2 => simp at hres
        next heq2 =>
            split at hres
            next e2 heq3 =>
                cases data with
                | dict ps =>
                    have hex : ∃ x, ("r", x) ∈ ps := by
                      simpa [pyInR] using heq2
                    obtain ⟨x, hmem⟩ := hex
                    have hfs : (ps.find? (fun p => p.1 == "r")).isSome := by
                      rw [List.find?_isSome]
                      exact ⟨("r", x), hmem, by simp⟩
                    obtain ⟨q, hq⟩ := Option.isSome_iff_exists.mp hfs
                    simp only [safeShape, hq] at hsafe'
                    rw [lenOfRItem, hq] at heq3
                    rcases q with ⟨k, v⟩
                    cases v <;> simp_all
                | arr xs =>
                    simp only [pyInR, Except.ok.injEq] at heq2
                    simp [safeShape, heq2] at hsafe'
                | str s2 =>
                    simp only [pyInR, Except.ok.injEq] at heq2
                    simp [safeShape, heq2] at hsafe'
                | num r => simp [pyInR] at heq2
                | bool b => simp [pyInR] at heq2
                | null => simp [pyInR] at heq2
            next n2 heq3 => simp at hres
    next heq =>
        simp only [] at hres
        split at hres
        · rcases h2 : jsonLoads (attempt_recovery (repairedInput s)) with _ | v <;>
            rw [h2] at hres <;> simp at hres
        · simp at hres
  · exact ⟨t, b, i, rfl⟩

/-- Witness for C4 (amended) at the malformed, safely-shaped input
`"not json"`. -/
theorem validate_and_repair_best_effort_witness :
    jsonLoads "not json".toList = none ∧ repairParseSafe "not json" = true ∧
    ∃ t b i, validate_and_repair "not json" 0 = .ok (t, b, i) :=
  ⟨rfl, rfl, (validate_and_repair_best_effort "not json" 0 rfl rfl).2.2⟩

/-- One step of the `find_duplicates` loop preserves the partition
invariant, extending the processed set by the new index. -/
theorem findDupStep_inv (L : Char → List Char) (hashF : String → String)
    (simF : String → String → Bool) (comments : List String)
    {processed : List Nat} {st : DedupState} (hinv : DedupInv processed st)
    {i : Nat} (hi : i ∉ processed) :
    DedupInv (processed ++ [i]) (findDupStep L hashF simF comments st i) := by
  obtain ⟨hiff, hdisj, hnodU, hnodD, hvals, hhash⟩ := hinv
  have hiU : i ∉ st.unique_indices := fun h => hi ((hiff i).mpr (Or.inl h))
  have hiD : i ∉ st.duplicate_map.map Prod.fst := fun h =>
    hi ((hiff i).mpr (Or.inr h))
  rw [findDupStep]
  split
  · -- empty/short comment: appended to unique_indices
    refine ⟨?_, ?_, ?_, hnodD, ?_, ?_⟩
    · intro k
      simp only [List.mem_append, List.mem_singleton, hiff k]
      tauto
    · intro k ⟨hk1, hk2⟩
      rcases List.mem_append.mp hk1 with hk1 | hk1
      · exact hdisj k ⟨hk1, hk2⟩
      · exact hiD (List.mem_singleton.mp hk1 ▸ hk2)
    · exact List.Nodup.append hnodU (List.nodup_singleton i)
        (List.disjoint_singleton.mpr hiU)
    · intro p hp
      exact List.mem_append_left _ (hvals p hp)
    · intro q hq
      exact List.mem_append_left _ (hhash q hq)
  · -- non-trivial comment
    dsimp only
    split
    next q hq =>
      -- exact hash hit: i becomes a duplicate of q.2
      have hq2 : q.2 ∈ st.unique_indices := hhash q (List.mem_of_find?_eq_some hq)
      refine ⟨?_, ?_, hnodU, ?_, ?_, hhash⟩
      · intro k
        simp only [List.mem_append, List.mem_singleton, List.map_append,
          List.map_cons, List.map_nil, hiff k]
        tauto
      · intro k ⟨hk1, hk2⟩
        simp only [List.map_append, List.mem_append, List.map_cons,
          List.map_nil, List.mem_singleton] at hk2
        rcases hk2 with hk2 | hk2
        · exact hdisj k ⟨hk1, hk2⟩
        · exact hiU (hk2 ▸ hk1)
      · rw [List.map_append]
        refine List.Nodup.append hnodD (by simp) ?_
        simp only [List.map_cons, List.map_nil, List.disjoint_singleton]
        exact hiD
      · intro p hp
        rcases List.mem_append.mp hp with hp | hp
        · exact hvals p hp
        · simp only [List.mem_singleton] at hp
          subst hp
          exact hq2
    next hq =>
      split
      next u hu =>
        -- fuzzy hit: i becomes a duplicate of u
        have hu2 : u ∈ st.unique_indices := List.mem_of_find?_eq_some hu
        refine ⟨?_, ?_, hnodU, ?_, ?_, hhash⟩
        · intro k
          simp only [List.mem_append, List.mem_singleton, List.map_append,
            List.map_cons, List.map_nil, hiff k]
          tauto
        · intro k ⟨hk1, hk2⟩
          simp only [List.map_append, List.mem_append, List.map_cons,
            List.map_nil, List.mem_singleton] at hk2
          rcases hk2 with hk2 | hk2
          · exact hdisj k ⟨hk1, hk2⟩
          · exact hiU (hk2 ▸ hk1)
        · rw [List.map_append]
          refine List.Nodup.append hnodD (by simp) ?_
          simp only [List.map_cons, List.map_nil, List.disjoint_singleton]
          exact hiD
        · intro p hp
          rcases List.mem_append.mp hp with hp | hp
          · exact hvals p hp
          · simp only [List.mem_singleton] at hp
            subst hp
            exact hu2
      next hu =>
        -- genuinely new: appended to unique_indices and processed_hashes
        refine ⟨?_, ?_, ?_, hnodD, ?_, ?_⟩
        · intro k
          simp only [List.mem_append, List.mem_singleton, hiff k]
          tauto
        · intro k ⟨hk1, hk2⟩
          rcases List.mem_append.mp hk1 with hk1 | hk1
          · exact hdisj k ⟨hk1, hk2⟩
          · exact hiD (List.mem_singleton.mp hk1 ▸ hk2)
        · exact List.Nodup.append hnodU (List.nodup_singleton i)
            (List.disjoint_singleton.mpr hiU)
        · intro p hp
          exact List.mem_append_left _ (hvals p hp)
        · intro q hq'
          rcases List.mem_append.mp hq' with hq' | hq'
          · exact List.mem_append_left _ (hhash q hq')
          · simp only [List.mem_singleton] at hq'
            subst hq'
            exact List.mem_append_right _ (by simp)

/-- The whole `find_duplicates` loop preserves the partition invariant over
any block of fresh indices. -/
theorem findDupLoop_inv (L : Char → List Char) (hashF : String → String)
    (simF : String → String → Bool) (comments : List String)
    (idxs : List Nat) :
    ∀ (processed : List Nat) (st : DedupState), DedupInv processed st →
    (processed ++ idxs).Nodup →
    DedupInv (processed ++ idxs)
      (idxs.foldl (findDupStep L hashF simF comments) st) := by
  induction idxs with
  | nil =>
      intro processed st hinv _
      simpa using hinv
  | cons i rest ih =>
      intro processed st hinv hnod
      have hi : i ∉ processed := by
        obtain ⟨-, -, hdis⟩ := List.nodup_append.mp hnod
        intro hmem
        exact hdis hmem (by simp)
      have hassoc : processed ++ i :: rest = (processed ++ [i]) ++ rest := by
        simp
      rw [List.foldl_cons, hassoc]
      exact ih (processed ++ [i]) _
        (findDupStep_inv L hashF simF comments hinv hi)
        (by rw [← hassoc]; exact hnod)

/-- The partition invariant holds of the final state of
`find_duplicates`. -/
theorem find_duplicates_partition (L : Char → List Char)
    (hashF : String → String) (simF : String → String → Bool)
    (comments : List String) :
    DedupInv (List.range comments.length)
      ((List.range comments.length).foldl
        (findDupStep L hashF simF comments) ⟨[], [], []⟩) := by
  have h := findDupLoop_inv L hashF simF comments
    (List.range comments.length) [] ⟨[], [], []⟩
    (by refine ⟨?_, ?_, ?_, ?_, ?_, ?_⟩ <;> simp [DedupInv])
    (by simpa using List.nodup_range comments.length)
  simpa using h

/-- One step of the phase-1 loop of `deduplicate_comments` preserves the
partition invariant. -/
theorem effDedupStep_inv (L nfd : Char → List Char) (isMark : Char → Bool)
    (hashF : String → String) (thr : ℚ) (comments : List String)
    (ratings : List Int) {processed : List Nat} {st : EffDedupState}
    (hinv : EffDedupInv processed st) {i : Nat} (hi : i ∉ processed) :
    EffDedupInv (processed ++ [i])
      (effDedupStep L nfd isMark hashF thr comments ratings st i) := by
  obtain ⟨hiff, hdisj, hnodF, hnodD, hvals, hhash, hbuck⟩ := hinv
  have hiF : i ∉ st.filtered.map Prod.snd := fun h => hi ((hiff i).mpr (Or.inl h))
  have hiD : i ∉ st.duplicate_map.map Prod.fst := fun h =>
    hi ((hiff i).mpr (Or.inr h))
  rw [effDedupStep]
  dsimp only
  split
  next q hq =>
    -- exact hash hit
    have hq2 : q.2 ∈ st.filtered.map Prod.snd :=
      hhash q (List.mem_of_find?_eq_some hq)
    refine ⟨?_, ?_, hnodF, ?_, ?_, hhash, hbuck⟩
    · intro k
      simp only [List.mem_append, List.mem_singleton, List.map_append,
        List.map_cons, List.map_nil, hiff k]
      tauto
    · intro k ⟨hk1, hk2⟩
      simp only [List.map_append, List.mem_append, List.map_cons,
        List.map_nil, List.mem_singleton] at hk2
      rcases hk2 with hk2 | hk2
      · exact hdisj k ⟨hk1, hk2⟩
      · exact hiF (hk2 ▸ hk1)
    · rw [List.map_append]
      refine List.Nodup.append hnodD (by simp) ?_
      simp only [List.map_cons, List.map_nil, List.disjoint_singleton]
      exact hiD
    · intro p hp
      rcases List.mem_append.mp hp with hp | hp
      · exact hvals p hp
      · simp only [List.mem_singleton] at hp
        subst hp
        exact hq2
  next hq =>
    split
    next u hu =>
      -- near-duplicate hit within the prefix bucket
      have humem : u ∈ ((st.seen_normalized.find? (fun q => q.1 ==
          pyTake 50 ((normalize_text L nfd isMark
            (comments.getD i "").toList).asString))).map (fun q => q.2)).getD [] :=
        List.mem_of_find?_eq_some hu
      have hu2 : u ∈ st.filtered.map Prod.snd := by
        rcases hfind : st.seen_normalized.find? (fun q => q.1 ==
            pyTake 50 ((normalize_text L nfd isMark
              (comments.getD i "").toList).asString)) with _ | q
        · rw [hfind] at humem
          simp at humem
        · rw [hfind] at humem
          simp only [Option.map_some', Option.getD_some] at humem
          exact hbuck q (List.mem_of_find?_eq_some hfind) u humem
      refine ⟨?_, ?_, hnodF, ?_, ?_, hhash, hbuck⟩
      · intro k
        simp only [List.mem_append, List.mem_singleton, List.map_append,
          List.map_cons, List.map_nil, hiff k]
        tauto
      · intro k ⟨hk1, hk2⟩
        simp only [List.map_append, List.mem_append, List.map_cons,
          List.map_nil, List.mem_singleton] at hk2
        rcases hk2 with hk2 | hk2
        · exact hdisj k ⟨hk1, hk2⟩
        · exact hiF (hk2 ▸ hk1)
      · rw [List.map_append]
        refine List.Nodup.append hnodD (by simp) ?_
        simp only [List.map_cons, List.map_nil, List.disjoint_singleton]
        exact hiD
      · intro p hp
        rcases List.mem_append.mp hp with hp | hp
        · exact hvals p hp
        · simp only [List.mem_singleton] at hp
          subst hp
          exact hu2
    next hu =>
      -- accepted as a new unique
      have hmapsnd : (st.filtered ++ [(comments.getD i "", i)]).map Prod.snd
          = st.filtered.map Prod.snd ++ [i] := by
        simp
      refine ⟨?_, ?_, ?_, hnodD, ?_, ?_, ?_⟩
      · intro k
        simp only [hmapsnd, List.mem_append, List.mem_singleton, hiff k]
        tauto
      · intro k ⟨hk1, hk2⟩
        rw [hmapsnd] at hk1
        rcases List.mem_append.mp hk1 with hk1 | hk1
        · exact hdisj k ⟨hk1, hk2⟩
        · exact hiD (List.mem_singleton.mp hk1 ▸ hk2)
      · rw [hmapsnd]
        exact List.Nodup.append hnodF (List.nodup_singleton i)
          (List.disjoint_singleton.mpr hiF)
      · intro p hp
        rw [hmapsnd]
        exact List.mem_append_left _ (hvals p hp)
      · intro q hq'
        rw [hmapsnd]
        rcases List.mem_append.mp hq' with hq' | hq'
        · exact List.mem_append_left _ (hhash q hq')
        · simp only [List.mem_singleton] at hq'
          subst hq'
          exact List.mem_append_right _ (by simp)
      · intro q hq' j hj
        rw [hmapsnd]
        split at hq'
        · -- an existing bucket, possibly extended with `i`
          rcases List.mem_map.mp hq' with ⟨q0, hq0, hq0eq⟩
          by_cases hkey : (q0.1 == pyTake 50 ((normalize_text L nfd isMark
              (comments.getD i "").toList).asString)) = true
          · rw [if_pos hkey] at hq0eq
            subst hq0eq
            simp only [List.mem_append, List.mem_singleton] at hj
            rcases hj with hj | hj
            · exact List.mem_append_left _ (hbuck q0 hq0 j hj)
            · subst hj
              exact List.mem_append_right _ (by simp)
          · rw [if_neg hkey] at hq0eq
            subst hq0eq
            exact List.mem_append_left _ (hbuck q0 hq0 j hj)
        · -- a fresh bucket `(key, [i])` appended
          rcases List.mem_append.mp hq' with hq' | hq'
          · exact List.mem_append_left _ (hbuck q hq' j hj)
          · simp only [List.mem_singleton] at hq'
            subst hq'
            simp only [List.mem_singleton] at hj
            subst hj
            exact List.mem_append_right _ (by simp)

/-- The whole phase-1 loop of `deduplicate_comments` preserves the partition
invariant over any block of fresh indices. -/
theorem effDedupLoop_inv (L nfd : Char → List Char) (isMark : Char → Bool)
    (hashF : String → String) (thr : ℚ) (comments : List String)
    (ratings : List Int) (idxs : List Nat) :
    ∀ (processed : List Nat) (st : EffDedupState), EffDedupInv processed st →
    (processed ++ idxs).Nodup →
    EffDedupInv (processed ++ idxs)
      (idxs.foldl (effDedupStep L nfd isMark hashF thr comments ratings) st) := by
  induction idxs with
  | nil =>
      intro processed st hinv _
      simpa using hinv
  | cons i rest ih =>
      intro processed st hinv hnod
      have hi : i ∉ processed := by
        obtain ⟨-, -, hdis⟩ := List.nodup_append.mp hnod
        intro hmem
        exact hdis hmem (by simp)
      have hassoc : processed ++ i :: rest = (processed ++ [i]) ++ rest := by
        simp
      rw [List.foldl_cons, hassoc]
      exact ih (processed ++ [i]) _
        (effDedupStep_inv L nfd isMark hashF thr comments ratings hinv hi)
        (by rw [← hassoc]; exact hnod)

/-- The phase-1 partition invariant holds of the final state of
`deduplicate_comments`. -/
theorem eff_dedup_partition (L nfd : Char → List Char) (isMark : Char → Bool)
    (hashF : String → String) (thr : ℚ) (comments : List String)
    (ratings : List Int) :
    EffDedupInv (List.range comments.length)
      ((List.range comments.length).foldl
        (effDedupStep L nfd isMark hashF thr comments ratings)
        ⟨[], [], [], [], []⟩) := by
  have h := effDedupLoop_inv L nfd isMark hashF thr comments ratings
    (List.range comments.length) [] ⟨[], [], [], [], []⟩
    (by refine ⟨?_, ?_, ?_, ?_, ?_, ?_, ?_⟩ <;> simp [EffDedupInv])
    (by simpa using List.nodup_range comments.length)
  simpa using h

/-- Splitting a list with `Nodup` second components by a boolean predicate
partitions the second components. -/
theorem mem_map_snd_filter_partition {l : List (α × Nat)}
    (hnod : (l.map Prod.snd).Nodup) (P : α × Nat → Bool) {j : Nat}
    (hj : j ∈ l.map Prod.snd) :
    (j ∈ (l.filter P).map Prod.snd ∧
      j ∉ (l.filter (fun x => !(P x))).map Prod.snd) ∨
    (j ∉ (l.filter P).map Prod.snd ∧
      j ∈ (l.filter (fun x => !(P x))).map Prod.snd) := by
  obtain ⟨p, hp, rfl⟩ := List.mem_map.mp hj
  have hinj := List.inj_on_of_nodup_map hnod
  by_cases hP : P p = true
  · refine Or.inl ⟨List.mem_map.mpr ⟨p, List.mem_filter.mpr ⟨hp, hP⟩, rfl⟩, ?_⟩
    intro hmem
    obtain ⟨q, hq, hqq⟩ := List.mem_map.mp hmem
    obtain ⟨hq1, hq2⟩ := List.mem_filter.mp hq
    have := hinj hq1 hp hqq
    subst this
    rw [hP] at hq2
    simp at hq2
  · refine Or.inr ⟨?_, List.mem_map.mpr ⟨p, List.mem_filter.mpr
      ⟨hp, by simp [hP]⟩, rfl⟩⟩
    intro hmem
    obtain ⟨q, hq, hqq⟩ := List.mem_map.mp hmem
    obtain ⟨hq1, hq2⟩ := List.mem_filter.mp hq
    have := hinj hq1 hp hqq
    subst this
    exact hP hq2

/-- Membership in a filtered projection implies membership in the full
projection. -/
theorem mem_map_snd_of_filter {l : List (α × Nat)} {P : α × Nat → Bool}
    {j : Nat} (hj : j ∈ (l.filter P).map Prod.snd) : j ∈ l.map Prod.snd := by
  obtain ⟨p, hp, rfl⟩ := List.mem_map.mp hj
  exact List.mem_map.mpr ⟨p, (List.mem_filter.mp hp).1, rfl⟩

/-- C5 (counterexample).  On input `["ok"]` the efficient deduplicator's
phase 2 removes the single representative as trivial: original index `0`
appears neither in the returned unique-index list nor among the
duplicate-map keys, violating the claimed two-way partition. -/
theorem efficient_dedup_counterexample :
    ¬ ((0 : Nat) ∈ (deduplicate_comments asciiCharLower nfdId noCombiningMark
        hashId ["ok"] [] (85/100)).final_indices ∨
      (0 : Nat) ∈ ((deduplicate_comments asciiCharLower nfdId noCombiningMark
        hashId ["ok"] [] (85/100)).duplicate_map.map Prod.fst)) ∧
    (["ok"] : List String).length = 1 := by
  decide

/-- C5 (amended).  `DeduplicationService.find_duplicates` partitions the
original indices exactly: each index lands in the unique list or among the
duplicate-map keys (never both, never neither, never twice), and every
duplicate-map value is a member of the unique list (no chains).
`EfficientDeduplicationService.deduplicate_comments` satisfies the same
invariant only up to its phase-2 trivial filter: each index lands in exactly
one of the returned unique list, the duplicate-map keys, or the
trivial-removed set, and a duplicate-map value references a phase-1
representative, which may itself have been removed as trivial.  Both hold
for every choice of the hash and similarity parameters. -/
theorem dedup_partition_invariant (L nfd : Char → List Char)
    (isMark : Char → Bool) (hashF hashG : String → String)
    (simF : String → String → Bool) (comments : List String)
    (ratings : List Int) (thr : ℚ) (i : Nat) (hi : i < comments.length) :
    ((i ∈ (find_duplicates L hashF simF comments).1 ∧
        i ∉ (find_duplicates L hashF simF comments).2.map Prod.fst) ∨
      (i ∉ (find_duplicates L hashF simF comments).1 ∧
        i ∈ (find_duplicates L hashF simF comments).2.map Prod.fst)) ∧
    (find_duplicates L hashF simF comments).1.Nodup ∧
    ((find_duplicates L hashF simF comments).2.map Prod.fst).Nodup ∧
    (∀ p ∈ (find_duplicates L hashF simF comments).2,
      p.2 ∈ (find_duplicates L hashF simF comments).1) ∧
    (((i ∈ (deduplicate_comments L nfd isMark hashG comments ratings
          thr).final_indices ∧
        i ∉ (deduplicate_comments L nfd isMark hashG comments ratings
          thr).duplicate_map.map Prod.fst ∧
        i ∉ (deduplicate_comments L nfd isMark hashG comments ratings
          thr).trivial_indices) ∨
      (i ∉ (deduplicate_comments L nfd isMark hashG comments ratings
          thr).final_indices ∧
        i ∈ (deduplicate_comments L nfd isMark hashG comments ratings
          thr).duplicate_map.map Prod.fst ∧
        i ∉ (deduplicate_comments L nfd isMark hashG comments ratings
          thr).trivial_indices) ∨
      (i ∉ (deduplicate_comments L nfd isMark hashG comments ratings
          thr).final_indices ∧
        i ∉ (deduplicate_comments L nfd isMark hashG comments ratings
          thr).duplicate_map.map Prod.fst ∧
        i ∈ (deduplicate_comments L nfd isMark hashG comments ratings
          thr).trivial_indices)) ∧
      (∀ p ∈ (deduplicate_comments L nfd isMark hashG comments ratings
          thr).duplicate_map,
        p.2 ∈ (deduplicate_comments L nfd isMark hashG comments ratings
          thr).final_indices ∨
        p.2 ∈ (deduplicate_comments L nfd isMark hashG comments ratings
          thr).trivial_indices)) := by
  obtain ⟨hiff, hdisj, hnodU, hnodD, hvals, -⟩ :=
    find_duplicates_partition L hashF simF comments
  have hirange : i ∈ List.range comments.length := List.mem_range.mpr hi
  have hfd : find_duplicates L hashF simF comments
      = (((List.range comments.length).foldl
          (findDupStep L hashF simF comments) ⟨[], [], []⟩).unique_indices,
        ((List.range comments.length).foldl
          (findDupStep L hashF simF comments) ⟨[], [], []⟩).duplicate_map) := rfl
  obtain ⟨eiff, edisj, enodF, enodD, evals, -, -⟩ :=
    eff_dedup_partition L nfd isMark hashG thr comments ratings
  have hnonempty : comments.isEmpty = false := by
    cases comments with
    | nil => simp at hi
    | cons c cs => rfl
  have heff : deduplicate_comments L nfd isMark hashG comments ratings thr
      = (let phase1 := (List.range comments.length).foldl
          (effDedupStep L nfd isMark hashG thr comments ratings)
          ⟨[], [], [], [], []⟩
        let final := phase1.filtered.filter
          (fun p => !(is_trivial L p.1))
        { final_comments := final.map (fun p => p.1)
          final_ratings :=
            if phase1.filtered_ratings = [] then []
            else ((phase1.filtered.zip phase1.filtered_ratings).filter
              (fun p => !(is_trivial L p.1.1))).map (fun p => p.2)
          final_indices := final.map (fun p => p.2)
          duplicate_map := phase1.duplicate_map
          trivial_indices :=
            (phase1.filtered.filter (fun p => is_trivial L p.1)).map
              (fun p => p.2) }) := by
    rw [deduplicate_comments, if_neg (by simp [hnonempty])]
  rw [hfd, heff]
  dsimp only
  refine ⟨?_, hnodU, hnodD, hvals, ?_, ?_⟩
  · rcases (hiff i).mp hirange with h | h
    · exact Or.inl ⟨h, fun h2 => hdisj i ⟨h, h2⟩⟩
    · exact Or.inr ⟨fun h2 => hdisj i ⟨h2, h⟩, h⟩
  · rcases (eiff i).mp hirange with h | h
    · rcases mem_map_snd_filter_partition enodF
        (fun p => is_trivial L p.1) h with ⟨h1, h2⟩ | ⟨h1, h2⟩
      · refine Or.inr (Or.inr ⟨?_, fun h3 => edisj i ⟨h, h3⟩, h1⟩)
        intro h3
        exact h2 (by simpa using h3)
      · refine Or.inl ⟨by simpa using h2, fun h3 => edisj i ⟨h, h3⟩, h1⟩
    · refine Or.inr (Or.inl ⟨?_, h, ?_⟩)
      · intro h2
        exact edisj i ⟨mem_map_snd_of_filter h2, h⟩
      · intro h2
        exact edisj i ⟨mem_map_snd_of_filter h2, h⟩
  · intro p hp
    have hmem := evals p hp
    rcases mem_map_snd_filter_partition enodF
      (fun q => is_trivial L q.1) hmem with ⟨h1, -⟩ | ⟨-, h2⟩
    · exact Or.inr h1
    · exact Or.inl (by simpa using h2)

/-- Witness for C5 (amended) at the end-to-end example of the spec. -/
theorem dedup_partition_invariant_witness :
    (0 : Nat) < (["Excelente!", "Excelente!", "x", "Muy caro y lento"] :
      List String).length ∧
    (∀ p ∈ (find_duplicates asciiCharLower hashId simEq
        ["Excelente!", "Excelente!", "x", "Muy caro y lento"]).2,
      p.2 ∈ (find_duplicates asciiCharLower hashId simEq
        ["Excelente!", "Excelente!", "x", "Muy caro y lento"]).1) :=
  ⟨by decide,
    (dedup_partition_invariant asciiCharLower nfdId noCombiningMark hashId
      hashId simEq ["Excelente!", "Excelente!", "x", "Muy caro y lento"]
      [9, 9, 1, 2] (85/100) 0 (by decide)).2.2.2.1⟩

/-! ### Helper lemmas on the whitespace-collapse and rstrip primitives -/

/-- Fact: `dropWhile` over an append: either the first part is consumed entirely or
the second part is untouched. -/
theorem dropWhile_append_eq (p : Char → Bool) (xs ys : List Char) :
    List.dropWhile p (xs ++ ys)
      = if (List.dropWhile p xs).isEmpty then List.dropWhile p ys
        else List.dropWhile p xs ++ ys := by
  induction xs with
  | nil => simp
  | cons x xs ih =>
      by_cases hx : p x = true
      · simpa [List.dropWhile_cons, hx] using ih
      · simp [List.dropWhile_cons, hx]

/-- Fact: `dropWhile` is idempotent. -/
theorem dropWhile_idem (p : Char → Bool) (l : List Char) :
    List.dropWhile p (List.dropWhile p l) = List.dropWhile p l := by
  induction l with
  | nil => rfl
  | cons x xs ih =>
      by_cases hx : p x = true
      · simpa [List.dropWhile_cons, hx] using ih
      · simp [List.dropWhile_cons, hx]

/-- Fact: `rstrip` distributes over append: the left part is touched only when the
right part is stripped away entirely. -/
theorem pyRstripSet_append (P : List Char) (a b : List Char) :
    pyRstripSet P (a ++ b)
      = if pyRstripSet P b = [] then pyRstripSet P a
        else a ++ pyRstripSet P b := by
  unfold pyRstripSet
  rw [List.reverse_append, dropWhile_append_eq]
  by_cases hb : (List.dropWhile (fun c => P.contains c) b.reverse).isEmpty
  · rw [if_pos hb, if_pos]
    simpa using hb
  · rw [if_neg hb, if_neg]
    · simp
    · simpa using hb

/-- Fact: `rstrip` is idempotent. -/
theorem pyRstripSet_idem (P : List Char) (l : List Char) :
    pyRstripSet P (pyRstripSet P l) = pyRstripSet P l := by
  unfold pyRstripSet
  rw [List.reverse_reverse, dropWhile_idem]

/-- Characters of an `rstrip` result come from the input. -/
theorem mem_of_mem_pyRstripSet {P l : List Char} {c : Char}
    (hc : c ∈ pyRstripSet P l) : c ∈ l := by
  unfold pyRstripSet at hc
  rw [List.mem_reverse] at hc
  have := (List.dropWhile_sublist (l := l.reverse)
    (p := fun c => P.contains c)).mem hc
  simpa using this

/-- Stripping a set that does not contain the space character keeps a leading
space. -/
theorem pyRstripSet_space_cons (P : List Char) (hP : P.contains ' ' = false)
    (w : List Char) :
    pyRstripSet P (' ' :: w) = ' ' :: pyRstripSet P w := by
  have h := pyRstripSet_append P [' '] w
  have hP' : ' ' ∉ P := by simpa using hP
  have hsp : pyRstripSet P [' '] = [' '] := by
    unfold pyRstripSet
    simp [List.dropWhile, hP']
  rw [show ' ' :: w = [' '] ++ w from rfl, h, hsp]
  by_cases hw : pyRstripSet P w = []
  · rw [if_pos hw, hw]
  · rw [if_neg hw]
    rfl

/-- Splitting after a run of non-space characters accumulates them. -/
theorem pySplitAux_word (w : List Char) (hw : ∀ c ∈ w, pyIsSpace c = false) :
    ∀ (r acc : List Char),
    pySplitAux (w ++ r) acc = pySplitAux r (w.reverse ++ acc) := by
  induction w with
  | nil => intro r acc; simp
  | cons c w' ih =>
      intro r acc
      have hc : pyIsSpace c = false := hw c (by simp)
      rw [List.cons_append, pySplitAux, if_neg (by simp [hc])]
      rw [ih (fun d hd => hw d (by simp [hd])) r (c :: acc)]
      simp

/-- Splitting at a space flushes the accumulated word. -/
theorem pySplitAux_space (r acc : List Char) :
    pySplitAux (' ' :: r) acc
      = if acc.isEmpty then pySplitAux r []
        else acc.reverse :: pySplitAux r [] := by
  rw [pySplitAux, if_pos (by decide)]

/-- Fact: `intercalate` over a two-or-more-word list. -/
theorem intercalate_cons_cons (s : List Char) (a b : List Char)
    (t : List (List Char)) :
    List.intercalate s (a :: b :: t) = a ++ s ++ List.intercalate s (b :: t) := by
  simp [List.intercalate, List.intersperse]

/-- Fact: `intercalate` over `u ++ [w]` appends `' ' :: w` when `u` is
non-empty. -/
theorem intercalate_append_last (u : List (List Char)) (w : List Char)
    (hu : u ≠ []) :
    List.intercalate [' '] (u ++ [w])
      = List.intercalate [' '] u ++ (' ' :: w) := by
  induction u with
  | nil => exact absurd rfl hu
  | cons x t ih =>
      cases t with
      | nil => simp [List.intercalate, List.intersperse]
      | cons y t2 =>
          rw [show ((x :: y :: t2) ++ [w]) = x :: ((y :: t2) ++ [w]) from rfl]
          rw [show ((y :: t2) ++ [w]) = y :: (t2 ++ [w]) from rfl]
          rw [intercalate_cons_cons]
          rw [show y :: (t2 ++ [w]) = (y :: t2) ++ [w] from rfl]
          rw [ih (by simp), intercalate_cons_cons]
          simp

/-- Python `split` is a left inverse of `' '.join` on lists of non-empty,
space-free words. -/
theorem pySplit_intercalate (ws : List (List Char))
    (h : ∀ w ∈ ws, w ≠ [] ∧ ∀ c ∈ w, pyIsSpace c = false) :
    pySplit (List.intercalate [' '] ws) = ws := by
  induction ws with
  | nil => rfl
  | cons w t ih =>
      obtain ⟨hne, hfree⟩ := h w (by simp)
      cases t with
      | nil =>
          show pySplitAux (List.intercalate [' '] [w]) [] = [w]
          rw [show List.intercalate [' '] [w] = w from by simp [List.intercalate]]
          rw [show w = w ++ [] from by simp, pySplitAux_word w hfree [] []]
          rw [pySplitAux]
          rw [if_neg (by simp [hne])]
          simp
      | cons w2 t2 =>
          show pySplitAux (List.intercalate [' '] (w :: w2 :: t2)) [] = w :: w2 :: t2
          rw [intercalate_cons_cons]
          rw [List.append_assoc, pySplitAux_word w hfree _ []]
          rw [show ([' '] ++ List.intercalate [' '] (w2 :: t2))
            = ' ' :: List.intercalate [' '] (w2 :: t2) from rfl]
          rw [pySplitAux_space]
          rw [if_neg (by simp [hne])]
          rw [List.append_nil, List.reverse_reverse]
          have := ih (fun w' hw' => h w' (by simp [hw']))
          rw [show pySplitAux (List.intercalate [' '] (w2 :: t2)) [] =
            pySplit (List.intercalate [' '] (w2 :: t2)) from rfl, this]

/-- Every word produced by `pySplitAux` is non-empty and space-free, given a
space-free accumulator. -/
theorem pySplitAux_words (l : List Char) :
    ∀ (acc : List Char), (∀ c ∈ acc, pyIsSpace c = false) →
    ∀ w ∈ pySplitAux l acc, w ≠ [] ∧ ∀ c ∈ w, pyIsSpace c = false := by
  induction l with
  | nil =>
      intro acc hacc w hw
      rw [pySplitAux] at hw
      by_cases hemp : acc.isEmpty
      · rw [if_pos hemp] at hw
        simp at hw
      · rw [if_neg hemp] at hw
        simp only [List.mem_singleton] at hw
        subst hw
        refine ⟨by simpa using hemp, ?_⟩
        intro c hc
        exact hacc c (List.mem_reverse.mp hc)
  | cons x xs ih =>
      intro acc hacc w hw
      rw [pySplitAux] at hw
      by_cases hx : pyIsSpace x = true
      · rw [if_pos hx] at hw
        by_cases hemp : acc.isEmpty
        · rw [if_pos hemp] at hw
          exact ih [] (by simp) w hw
        · rw [if_neg hemp] at hw
          rcases List.mem_cons.mp hw with hw | hw
          · subst hw
            refine ⟨by simpa using hemp, ?_⟩
            intro c hc
            exact hacc c (List.mem_reverse.mp hc)
          · exact ih [] (by simp) w hw
      · rw [if_neg hx] at hw
        refine ih (x :: acc) ?_ w hw
        intro c hc
        rcases List.mem_cons.mp hc with hc | hc
        · subst hc
          simpa using hx
        · exact hacc c hc

/-- Characters of `pySplitAux` words come from the input or the
accumulator. -/
theorem pySplitAux_chars (l : List Char) :
    ∀ (acc : List Char) (w : List Char), w ∈ pySplitAux l acc →
    ∀ c ∈ w, c ∈ l ∨ c ∈ acc := by
  induction l with
  | nil =>
      intro acc w hw c hc
      rw [pySplitAux] at hw
      by_cases hemp : acc.isEmpty
      · rw [if_pos hemp] at hw
        simp at hw
      · rw [if_neg hemp] at hw
        simp only [List.mem_singleton] at hw
        subst hw
        exact Or.inr (List.mem_reverse.mp hc)
  | cons x xs ih =>
      intro acc w hw c hc
      rw [pySplitAux] at hw
      by_cases hx : pyIsSpace x = true
      · rw [if_pos hx] at hw
        by_cases hemp : acc.isEmpty
        · rw [if_pos hemp] at hw
          rcases ih [] w hw c hc with h | h
          · exact Or.inl (by simp [h])
          · simp at h
        · rw [if_neg hemp] at hw
          rcases List.mem_cons.mp hw with hw | hw
          · subst hw
            exact Or.inr (List.mem_reverse.mp hc)
          · rcases ih [] w hw c hc with h | h
            · exact Or.inl (by simp [h])
            · simp at h
      · rw [if_neg hx] at hw
        rcases ih (x :: acc) w hw c hc with h | h
        · exact Or.inl (by simp [h])
        · rcases List.mem_cons.mp h with h | h
          · exact Or.inl (by simp [h])
          · exact Or.inr h

/-- Characters of an intercalation are the separator space or word
characters. -/
theorem mem_intercalate_space {ws : List (List Char)} {c : Char}
    (hc : c ∈ List.intercalate [' '] ws) : c = ' ' ∨ ∃ w ∈ ws, c ∈ w := by
  induction ws with
  | nil => simp [List.intercalate] at hc
  | cons w t ih =>
      cases t with
      | nil =>
          rw [show List.intercalate [' '] [w] = w from by simp [List.intercalate]] at hc
          exact Or.inr ⟨w, by simp, hc⟩
      | cons w2 t2 =>
          rw [intercalate_cons_cons] at hc
          rcases List.mem_append.mp hc with hc | hc
          · rcases List.mem_append.mp hc with hc | hc
            · exact Or.inr ⟨w, by simp, hc⟩
            · simp only [List.mem_singleton] at hc
              exact Or.inl hc
          · rcases ih hc with h | ⟨w', hw', hcw⟩
            · exact Or.inl h
            · exact Or.inr ⟨w', by simp [hw'], hcw⟩

/-- The whitespace-collapsed form of any list is in word normal form. -/
theorem isWords_pyCollapseWs (l : List Char) : IsWords (pyCollapseWs l) :=
  ⟨pySplit l, pySplitAux_words l [] (by simp), rfl⟩

/-- Collapsing is the identity on word normal forms. -/
theorem pyCollapseWs_of_isWords {l : List Char} (h : IsWords l) :
    pyCollapseWs l = l := by
  obtain ⟨ws, hws, rfl⟩ := h
  rw [pyCollapseWs, pySplit_intercalate ws hws]

/-- Stripping trailing punctuation (a space-free character set) from a word
normal form yields a word normal form again, unless it exposes a trailing
space. -/
theorem isWords_pyRstripSet {P l : List Char} (hP : P.contains ' ' = false)
    (h : IsWords l) (hlast : (pyRstripSet P l).getLast? ≠ some ' ') :
    IsWords (pyRstripSet P l) := by
  obtain ⟨ws, hws, rfl⟩ := h
  rcases hrev : ws.reverse with _ | ⟨w, t⟩
  · have : ws = [] := by simpa using congrArg List.reverse hrev
    subst this
    exact ⟨[], by simp, by simp [pyRstripSet, List.intercalate]⟩
  · have hws' : ws = t.reverse ++ [w] := by
      have := congrArg List.reverse hrev
      simpa using this
    subst hws'
    obtain ⟨hwne, hwfree⟩ := hws w (by simp)
    cases ht : t.reverse with
    | nil =>
        rw [ht] at hws
        rw [show List.intercalate [' '] ([] ++ [w]) = w from by
          simp [List.intercalate]]
        rcases hz : pyRstripSet P w with _ | ⟨z, zs⟩
        · exact ⟨[], by simp, by simp [hz, List.intercalate]⟩
        · refine ⟨[z :: zs], ?_, by simp [hz, List.intercalate]⟩
          intro w' hw'
          simp only [List.mem_singleton] at hw'
          subst hw'
          refine ⟨by simp, ?_⟩
          intro c hc
          exact hwfree c (mem_of_mem_pyRstripSet (hz ▸ hc))
    | cons w2 t2 =>
        rw [ht] at hws hlast
        have hinter : List.intercalate [' '] ((w2 :: t2) ++ [w])
            = List.intercalate [' '] (w2 :: t2) ++ (' ' :: w) :=
          intercalate_append_last (w2 :: t2) w (by simp)
        rw [hinter, pyRstripSet_append, pyRstripSet_space_cons P hP]
        rw [if_neg (by simp)]
        rcases hz : pyRstripSet P w with _ | ⟨z, zs⟩
        · exfalso
          rw [hinter, pyRstripSet_append, pyRstripSet_space_cons P hP, hz,
            if_neg (by simp)] at hlast
          simp at hlast
        · refine ⟨(w2 :: t2) ++ [z :: zs], ?_, ?_⟩
          · intro w' hw'
            rcases List.mem_append.mp hw' with hw' | hw'
            · exact hws w' (List.mem_append_left _ hw')
            · simp only [List.mem_singleton] at hw'
              subst hw'
              refine ⟨by simp, ?_⟩
              intro c hc
              exact hwfree c (mem_of_mem_pyRstripSet (hz ▸ hc))
          · rw [intercalate_append_last (w2 :: t2) (z :: zs) (by simp)]

/-- Unfolding of `_normalize_text` as the composed pipeline. -/
theorem normalize_text_def (L nfd : Char → List Char) (M : Char → Bool)
    (x : List Char) :
    normalize_text L nfd M x
      = pyRstripSet ['.', ',', '!', '?', ';', ':']
          (pyCollapseWs (((x.flatMap L).flatMap nfd).filter
            (fun c => !(M c)))) := rfl

/-- Fact: `flatMap` of a function fixing every element of a list is the
identity. -/
theorem flatMap_fixed {l : List Char} {f : Char → List Char}
    (h : ∀ c ∈ l, f c = [c]) : l.flatMap f = l := by
  induction l with
  | nil => rfl
  | cons c t ih =>
      rw [List.flatMap_cons, h c (by simp), ih (fun d hd => h d (by simp [hd]))]
      rfl

/-- Every character surviving the normalizer pipeline is fixed by the
lower-case map, the decomposition map, and the mark filter, given the
Unicode stability facts. -/
theorem normalize_text_stable_chars (L nfd : Char → List Char)
    (M : Char → Bool)
    (Hl : ∀ e d c, d ∈ L e → c ∈ nfd d → L c = [c])
    (Hn : ∀ d c, c ∈ nfd d → nfd c = [c])
    (HspL : L ' ' = [' ']) (HspN : nfd ' ' = [' ']) (HspM : M ' ' = false)
    (x : List Char) :
    ∀ c ∈ normalize_text L nfd M x, L c = [c] ∧ nfd c = [c] ∧ M c = false := by
  intro c hc
  rw [normalize_text_def] at hc
  have hc1 := mem_of_mem_pyRstripSet hc
  rcases mem_intercalate_space hc1 with rfl | ⟨w, hw, hcw⟩
  · exact ⟨HspL, HspN, HspM⟩
  · have hcz : c ∈ ((x.flatMap L).flatMap nfd).filter (fun c => !(M c)) := by
      rcases pySplitAux_chars _ [] w hw c hcw with h | h
      · exact h
      · simp at h
    obtain ⟨hmem, hM⟩ := List.mem_filter.mp hcz
    obtain ⟨d, hd, hcd⟩ := List.mem_flatMap.mp hmem
    obtain ⟨e, _, hde⟩ := List.mem_flatMap.mp hd
    exact ⟨Hl e d c hde hcd, Hn d c hcd, by simpa using hM⟩

/-- C6 (counterexample).  The normalizer is not idempotent: on `"a ."`
(pure ASCII, where the parameter maps agree with `str.lower` and NFD) the
trailing-punctuation trim exposes a trailing space, `normalize("a .") =
"a "`, and a second application removes it, `normalize("a ") = "a"`. -/
theorem normalize_text_not_idempotent :
    normalize_text asciiCharLower nfdId noCombiningMark "a .".toList
      = "a ".toList ∧
    normalize_text asciiCharLower nfdId noCombiningMark
        (normalize_text asciiCharLower nfdId noCombiningMark "a .".toList)
      ≠ normalize_text asciiCharLower nfdId noCombiningMark "a .".toList := by
  decide

/-- C6 (amended).  `_normalize_text` is idempotent on every input whose
normalized form does not end in a space (equivalently: whenever the final
punctuation trim does not expose a trailing space), under the Unicode
stability facts: lower-casing then decomposing yields lower-stable
characters, decomposition output is decomposition-stable, and the space
character is fixed by all three maps. -/
theorem normalize_text_conditional_idempotent (L nfd : Char → List Char)
    (M : Char → Bool)
    (Hl : ∀ e d c, d ∈ L e → c ∈ nfd d → L c = [c])
    (Hn : ∀ d c, c ∈ nfd d → nfd c = [c])
    (HspL : L ' ' = [' ']) (HspN : nfd ' ' = [' ']) (HspM : M ' ' = false)
    (x : List Char)
    (Hnt : (normalize_text L nfd M x).getLast? ≠ some ' ') :
    normalize_text L nfd M (normalize_text L nfd M x)
      = normalize_text L nfd M x := by
  have hstable := normalize_text_stable_chars L nfd M Hl Hn HspL HspN HspM x
  have h1 : (normalize_text L nfd M x).flatMap L = normalize_text L nfd M x :=
    flatMap_fixed (fun c hc => (hstable c hc).1)
  have h2 : ((normalize_text L nfd M x).flatMap L).flatMap nfd
      = normalize_text L nfd M x := by
    rw [h1]
    exact flatMap_fixed (fun c hc => (hstable c hc).2.1)
  have h3 : (((normalize_text L nfd M x).flatMap L).flatMap nfd).filter
      (fun c => !(M c)) = normalize_text L nfd M x := by
    rw [h2]
    apply List.filter_eq_self.mpr
    intro c hc
    simp [(hstable c hc).2.2]
  have hyw : IsWords (normalize_text L nfd M x) := by
    rw [normalize_text_def]
    refine isWords_pyRstripSet (by decide) (isWords_pyCollapseWs _) ?_
    rw [← normalize_text_def]
    exact Hnt
  have h4 : pyRstripSet ['.', ',', '!', '?', ';', ':']
      (normalize_text L nfd M x) = normalize_text L nfd M x := by
    conv_lhs => rw [normalize_text_def]
    rw [pyRstripSet_idem, ← normalize_text_def]
  rw [normalize_text_def L nfd M (normalize_text L nfd M x), h3,
    pyCollapseWs_of_isWords hyw, h4]

/-- Witness for C6 (amended) with identity parameter maps at `"hola mundo"`. -/
theorem normalize_text_conditional_idempotent_witness :
    (normalize_text nfdId nfdId noCombiningMark "hola mundo".toList).getLast?
      ≠ some ' ' ∧
    normalize_text nfdId nfdId noCombiningMark
        (normalize_text nfdId nfdId noCombiningMark "hola mundo".toList)
      = normalize_text nfdId nfdId noCombiningMark "hola mundo".toList :=
  ⟨by decide,
    normalize_text_conditional_idempotent nfdId nfdId noCombiningMark
      (fun _ _ _ _ _ => rfl) (fun _ _ _ => rfl) rfl rfl rfl
      "hola mundo".toList (by decide)⟩

/-- The row built for index `idx` stores the full original comment text. -/
theorem rowFor_original_text (api_results : List α) (all_comments : List String)
    (filtered_indices : List Nat) (duplicate_map : List (Nat × Nat))
    (all_ratings : List Int) (idx : Nat) :
    (rowFor api_results all_comments filtered_indices duplicate_map
      all_ratings idx).original_text = all_comments.getD idx "" := by
  unfold rowFor
  rcases h1 : dictLookup duplicate_map idx with _ | rep
  · rcases h2 : dictLookup (filtered_indices.zip api_results) idx with _ | a <;>
      simp [h1, h2]
  · rcases h2 : dictLookup (filtered_indices.zip api_results) rep with _ | a <;>
      simp [h1, h2]

/-- Fact: `s[:n]` has at most `n` characters. -/
theorem pyTake_length (n : Nat) (s : String) : (pyTake n s).length ≤ n := by
  rw [pyTake, List.length_asString, List.length_take]
  exact min_le_left n s.length

/-- Truncating twice to the same bound is truncating once. -/
theorem pyTake_pyTake (n : Nat) (s : String) :
    pyTake n (pyTake n s) = pyTake n s := by
  rw [pyTake, pyTake, List.toList_asString, List.take_take, min_self]

/-- The packing loop only redistributes comments: its flattened output is
the already-emitted batches, the current batch, and the pending comments. -/
theorem batchLoop_flatten (maxB : Nat) (avail : Int) :
    ∀ (pairs : List (String × Nat)) (batches : List (List String))
      (cur : List String) (curTok : Nat),
    (batchLoop maxB avail pairs batches cur curTok).flatten
      = batches.flatten ++ cur ++ pairs.map (fun p => p.1) := by
  intro pairs
  induction pairs with
  | nil =>
      intro batches cur curTok
      rw [batchLoop, List.flatten_append, flush_flatten]
      simp
  | cons p rest ih =>
      intro batches cur curTok
      obtain ⟨c, t⟩ := p
      rw [batchLoop]
      by_cases hover : (t : Int) > avail
      · rw [if_pos hover, ih]
        rw [List.flatten_append, List.flatten_append, flush_flatten]
        simp
      · rw [if_neg hover]
        by_cases hcond : ((curTok + t : Int) > avail ∨
            maxB ≤ cur.length) ∧ ¬ cur.isEmpty
        · rw [if_pos hcond, ih]
          simp
        · rw [if_neg hcond, ih]
          simp

/-- C10.  Every comment actually submitted for analysis is a bounded prefix
of the stored original: `prepare_analysis_data` sends `all_comments[i][:150]`
for each surviving representative index `i` (at most 150 characters); the
batcher caps every batched comment at its first 1500 characters; the prompt
builder uses only the first 150 characters of each comment; and the final
rows keep the full, unmodified original text. -/
theorem analysis_truncation_bounds (L : Char → List Char)
    (hashF : String → String) (simF : String → String → Bool)
    (all_comments : List String) (count_fn : String → Nat)
    (comments : List String) (max_tokens_per_batch : Int)
    (max_batch_size : Nat) {α : Type} (api_results : List α)
    (filtered_indices : List Nat) (duplicate_map : List (Nat × Nat))
    (all_ratings : List Int) (i : Nat) (hi : i < all_comments.length) :
    (∀ c ∈ prepare_comments_for_api L hashF simF all_comments,
      c.length ≤ 150 ∧
      ∃ j ∈ filter_trivial_comments L all_comments
          (find_duplicates L hashF simF all_comments).1,
        c = pyTake 150 (all_comments.getD j "")) ∧
    (∀ b ∈ optimize_batch_size count_fn comments max_tokens_per_batch
        max_batch_size, ∀ c ∈ b,
      c.length ≤ 1500 ∧ ∃ o ∈ comments, c = pyTake 1500 o) ∧
    build_optimized_user_prompt comments
      = build_optimized_user_prompt (comments.map (pyTake 150)) ∧
    ((expand_results_with_duplicates api_results all_comments filtered_indices
        duplicate_map all_ratings).get
      ⟨i, by simpa [expand_results_with_duplicates]⟩).original_text
      = all_comments.getD i "" := by
  refine ⟨?_, ?_, ?_, ?_⟩
  · intro c hc
    rw [prepare_comments_for_api] at hc
    obtain ⟨j, hj, rfl⟩ := List.mem_map.mp hc
    exact ⟨pyTake_length 150 _, j, hj, rfl⟩
  · intro b hb c hc
    have hjoin : (optimize_batch_size count_fn comments max_tokens_per_batch
        max_batch_size).flatten = comments.map (pyTake 1500) := by
      rw [show optimize_batch_size count_fn comments max_tokens_per_batch
          max_batch_size = batchLoop max_batch_size (max_tokens_per_batch - 2000)
          (comments.map (fun comment =>
            (pyTake 1500 comment, count_fn (pyTake 1500 comment)))) [] [] 0
        from rfl, batchLoop_flatten]
      simp [List.map_map, Function.comp]
    have hcmem : c ∈ (optimize_batch_size count_fn comments
        max_tokens_per_batch max_batch_size).flatten :=
      List.mem_flatten.mpr ⟨b, hb, hc⟩
    rw [hjoin] at hcmem
    obtain ⟨o, ho, rfl⟩ := List.mem_map.mp hcmem
    exact ⟨pyTake_length 1500 o, o, ho, rfl⟩
  · rw [build_optimized_user_prompt, build_optimized_user_prompt,
      List.enum_map]
    congr 1
    rw [List.map_map]
    apply List.map_congr_left
    intro p _
    simp [Function.comp, pyTake_pyTake]
  · rw [expand_get]
    exact rowFor_original_text ..

/-- Witness for C10 at a one-comment input. -/
theorem analysis_truncation_bounds_witness :
    (0 : Nat) < (["hola"] : List String).length ∧
    ((expand_results_with_duplicates ([] : List Nat) ["hola"] [] [] []).get
        ⟨0, by simpa [expand_results_with_duplicates]⟩).original_text
      = (["hola"] : List String).getD 0 "" :=
  ⟨by decide,
    (analysis_truncation_bounds nfdId hashId simEq ["hola"] estimate_tokens
      ["hola"] 3000 50 ([] : List Nat) [] [] [] 0 (by decide)).2.2.2⟩

end Feedback
